import Mathlib

set_option maxHeartbeats 1000000
set_option maxRecDepth 4096

/-!
Verification development for the covid testing-site discrete-event simulation
(src/src/covid_simulation.py).

The simulation core is embedded shallowly:

* Python integers are modelled by Nat (all quantities in the program are
  non-negative: timestamps, ids, person counts, occupancies).
* The classes ArrivalEvent, PreregistrationEvent, TestingEvent and
  DepartureEvent are modelled by a tagged value EKind carried inside a single
  Event structure; the back-reference from an event to its simulation object
  is replaced by explicit state passing of SimState.
* The heapq library functions used by the program (heappush, heappop with
  the helpers siftup and siftdown) are embedded operation by operation on
  List Event, following the reference implementation of the library that the
  program calls.
* random.randint lo hi is modelled by a draw from an injectable stream
  g : Nat -> Nat of raw values; the k-th draw yields lo + g k % (hi + 1 - lo),
  which is some value in the inclusive range, as the library guarantees.
* The fallible list removal in Simulation.dequeue_car (Python list.remove,
  which raises when the value is absent) returns an Option; processing a
  DEPARTURE for an id that is not in the car queue yields none, which aborts
  the run (runFuel propagates none).
-/

/-- The four event types of the simulation (the TYPE tag of each Event
subclass). -/
inductive EKind : Type
  | arrival
  | prereg
  | testing
  | departure
deriving DecidableEq, Repr

/-- An event of the simulation: Event.__init__ stores car id, timestamp and
person count; the kind tag replaces the Python subclass. -/
structure Event : Type where
  carId : Nat
  timestamp : Nat
  personCount : Nat
  kind : EKind
deriving DecidableEq, Repr

instance : Inhabited Event := ⟨⟨0, 0, 0, EKind.arrival⟩⟩

/-- Event.__lt__ : events compare by timestamp only. -/
def eventLT (a b : Event) : Bool := a.timestamp < b.timestamp

/-- Event.__eq__ : events with equal timestamps compare equal. -/
def eventEQ (a b : Event) : Bool := a.timestamp == b.timestamp

/-- One observability record, as written by Event.log_self through
Simulation.log: time, car id, person count, event type, cars in system. -/
structure LogRec : Type where
  time : Nat
  carId : Nat
  personCount : Nat
  etype : EKind
  carsInSys : Nat
deriving DecidableEq, Repr

/-- heapq._siftdown: bubble the new item up from position pos toward
startpos, moving larger parents down. The new item is read once at entry
(parameter newitem) exactly as the library does. -/
def siftdownLoop (heap : List Event) (startpos pos : Nat) (newitem : Event) :
    List Event :=
  if h : startpos < pos then
    let parentpos := (pos - 1) / 2
    let parent := heap.getD parentpos default
    if eventLT newitem parent then
      siftdownLoop (heap.set pos parent) startpos parentpos newitem
    else
      heap.set pos newitem
  else
    heap.set pos newitem
termination_by pos
decreasing_by
  exact Nat.lt_of_le_of_lt (Nat.div_le_self _ _)
    (Nat.sub_lt (Nat.lt_of_le_of_lt (Nat.zero_le _) h) Nat.one_pos)

/-- heapq._siftdown entry point: the new item is the element currently at
position pos. -/
def siftdown (heap : List Event) (startpos pos : Nat) : List Event :=
  siftdownLoop heap startpos pos (heap.getD pos default)

/-- heapq._siftup main loop: move the smaller child up into the hole at pos
until a leaf is reached, then place the new item and bubble it up again. -/
def siftupLoop (heap : List Event) (startpos pos : Nat) (newitem : Event) :
    List Event :=
  let endpos := heap.length
  let childpos := 2 * pos + 1
  if h : childpos < endpos then
    let rightpos := childpos + 1
    let cp :=
      if rightpos < endpos &&
          !(eventLT (heap.getD childpos default) (heap.getD rightpos default))
        then rightpos else childpos
    siftupLoop (heap.set pos (heap.getD cp default)) startpos cp newitem
  else
    siftdown (heap.set pos newitem) startpos pos
termination_by heap.length - pos
decreasing_by
  simp only [List.length_set]
  have hcp : 2 * pos + 1 ≤ cp := by
    simp only [cp]
    split
    · exact Nat.le_succ _
    · exact Nat.le_refl _
  have hcp2 : cp < heap.length := by
    simp only [cp]
    split
    · next hsp =>
      have := (Bool.and_eq_true _ _).mp hsp
      exact of_decide_eq_true (this.1)
    · exact h
  have hpos : pos < cp := by omega
  exact Nat.sub_lt_sub_left (Nat.lt_trans hpos hcp2) hpos

/-- heapq._siftup entry point. -/
def siftup (heap : List Event) (pos : Nat) : List Event :=
  siftupLoop heap pos pos (heap.getD pos default)

/-- heapq.heappush: append the item and sift it down toward the root
(startpos 0) from the last position. -/
def heappush (heap : List Event) (item : Event) : List Event :=
  siftdown (heap ++ [item]) 0 heap.length

/-- heapq.heappop, fused with the emptiness guard of Simulation.next_event:
on the empty heap there is nothing to pop; otherwise remove the last element,
and if the heap is still non-empty return its root after re-sifting the last
element from the root. -/
def heappop (heap : List Event) : Option (Event × List Event) :=
  match heap with
  | [] => none
  | _ :: _ =>
    let lastelt := heap.getLastD default
    let rest := heap.dropLast
    if rest.isEmpty then
      some (lastelt, [])
    else
      some (rest.getD 0 default, siftup (rest.set 0 lastelt) 0)

/-- Simulation.MAX_CARS. -/
def MAX_CARS : Nat := 10

/-- Simulation.MAX_ARRIVAL_TIME (seconds). -/
def MAX_ARRIVAL_TIME : Nat := 7200

/-- random.randint lo hi, modelled as the k-th draw from the raw stream g:
some value in the inclusive range lo..hi. -/
def randintV (g : Nat → Nat) (k lo hi : Nat) : Nat :=
  lo + g k % (hi + 1 - lo)

/-- The mutable state of a Simulation object: the event queue (a heap), the
car queue, the trace of records written through Simulation.log, and the
position in the injected randomness stream. -/
structure SimState : Type where
  eventQueue : List Event
  carQueue : List Nat
  trace : List LogRec
  rng : Nat → Nat
  rngIdx : Nat

/-- Simulation.car_count. -/
def car_count (s : SimState) : Nat := s.carQueue.length

/-- Simulation.enqueue_car, acting on the car queue: reject when the queue
already holds MAX_CARS cars, else append the id. -/
def enqueue_car (q : List Nat) (id : Nat) : Bool × List Nat :=
  if MAX_CARS ≤ q.length then (false, q) else (true, q ++ [id])

/-- Simulation.dequeue_car, acting on the car queue: Python list.remove, which
removes the first occurrence and raises (modelled by none) when absent. -/
def dequeue_car (q : List Nat) (id : Nat) : Option (List Nat) :=
  if id ∈ q then some (q.erase id) else none

/-- Simulation.add_event. -/
def add_event (s : SimState) (e : Event) : SimState :=
  { s with eventQueue := heappush s.eventQueue e }

/-- Simulation.next_event: None on the empty queue, else heappop. -/
def next_event (s : SimState) : Option (Event × SimState) :=
  match heappop s.eventQueue with
  | none => none
  | some (e, q) => some (e, { s with eventQueue := q })

/-- Simulation.log: append one record to the trace (the CSV sink). -/
def writeLog (s : SimState) (r : LogRec) : SimState :=
  { s with trace := s.trace ++ [r] }

/-- Event.log_self: log the current event together with the current
car count. -/
def log_self (e : Event) (s : SimState) : SimState :=
  writeLog s ⟨e.timestamp, e.carId, e.personCount, e.kind, car_count s⟩

/-- An in-run call of random.randint: draw the next stream value and advance
the stream position. -/
def randint (lo hi : Nat) (s : SimState) : Nat × SimState :=
  (randintV s.rng s.rngIdx lo hi, { s with rngIdx := s.rngIdx + 1 })

/-- The processEvent methods of the four event classes, dispatched on the
kind tag. The order of side effects follows the source exactly: ARRIVAL logs
first and then tries to admit; PREREGISTRATION and TESTING schedule the
follow-up and then log; DEPARTURE releases the car and then logs. A DEPARTURE
for an id not in the car queue is the list.remove error: none. -/
def processEvent (e : Event) (s : SimState) : Option SimState :=
  match e.kind with
  | EKind.arrival =>
    let s1 := log_self e s
    match enqueue_car s1.carQueue e.carId with
    | (false, _) => some s1
    | (true, q) =>
      some (add_event { s1 with carQueue := q }
        ⟨e.carId, e.timestamp, e.personCount, EKind.prereg⟩)
  | EKind.prereg =>
    let p := randint 60 120 s
    some (log_self e
      (add_event p.2 ⟨e.carId, e.timestamp + p.1, e.personCount, EKind.testing⟩))
  | EKind.testing =>
    some (log_self e
      (add_event s
        ⟨e.carId, e.timestamp + 240 * e.personCount, e.personCount,
          EKind.departure⟩))
  | EKind.departure =>
    match dequeue_car s.carQueue e.carId with
    | none => none
    | some q => some (log_self e { s with carQueue := q })

/-- The seeding loop of Simulation.__init__: while the running time has not
passed MAX_ARRIVAL_TIME, push one ARRIVAL event with the next fresh id and a
random person count in 1..5, then advance the time by a random step in
30..120. Each iteration consumes two draws (person count, then step).
Returns the queue, the next stream position and the final id counter. -/
def seedLoop (g : Nat → Nat) (k time idc : Nat) (q : List Event) :
    List Event × Nat × Nat :=
  if time ≤ MAX_ARRIVAL_TIME then
    let pc := randintV g k 1 5
    let q2 := heappush q ⟨idc, time, pc, EKind.arrival⟩
    let step := randintV g (k + 1) 30 120
    seedLoop g (k + 2) (time + step) (idc + 1) q2
  else
    (q, k, idc)
termination_by MAX_ARRIVAL_TIME + 1 - time
decreasing_by
  have h30 : 30 ≤ randintV g (k + 1) 30 120 := Nat.le_add_right _ _
  omega

/-- Simulation.__init__ with the randomness stream g: empty car queue and
trace, event queue seeded from a first time drawn in 30..120. -/
def initState (g : Nat → Nat) : SimState :=
  let time := randintV g 0 30 120
  let r := seedLoop g 1 time 0 []
  { eventQueue := r.1, carQueue := [], trace := [], rng := g, rngIdx := r.2.1 }

/-- Simulation.run with explicit fuel: pop and process events while the queue
is non-empty. Returns some final state when the queue empties within the
given number of dispatches, none when the fuel runs out first or when a
dispatch aborts (the dequeue_car error). -/
def runFuel (fuel : Nat) (s : SimState) : Option SimState :=
  match fuel with
  | 0 => if s.eventQueue.isEmpty then some s else none
  | Nat.succ fuel =>
    match next_event s with
    | none => some s
    | some (e, s1) =>
      match processEvent e s1 with
      | none => none
      | some s2 => runFuel fuel s2

/-- One iteration of the run loop as a relation: pop the earliest event and
process it successfully. -/
def SStep (s s2 : SimState) : Prop :=
  ∃ e s1, next_event s = some (e, s1) ∧ processEvent e s1 = some s2

/-- Reachability along run-loop iterations. -/
def Reach (s s2 : SimState) : Prop := Relation.ReflTransGen SStep s s2

/-! ## Multiset bookkeeping for the heap operations

The run-level invariants only depend on the event queue through its multiset
of events, so the central facts about the sift operations are that they
permute the underlying list. -/

theorem set_append_perm {α : Type} [DecidableEq α] (l : List α) (n : Nat)
    (a d : α) (h : n < l.length) :
    (l.set n a ++ [l.getD n d]).Perm (l ++ [a]) := by
  rw [List.getD_eq_getElem l d h, List.set_eq_take_cons_drop a h]
  conv_rhs => rw [← List.take_append_drop n l, List.drop_eq_getElem_cons h]
  rw [List.perm_iff_count]
  intro x
  simp only [List.count_append, List.count_cons, List.count_nil]
  omega

theorem multiset_set {α : Type} [DecidableEq α] (l : List α) (n : Nat)
    (a d : α) (h : n < l.length) :
    (↑(l.set n a) : Multiset α) + {l.getD n d} = ↑l + {a} := by
  have h2 : ((↑(l.set n a ++ [l.getD n d]) : Multiset α)) = ↑(l ++ [a]) :=
    Multiset.coe_eq_coe.mpr (set_append_perm l n a d h)
  simp only [← Multiset.coe_singleton, ← Multiset.coe_add] at *
  exact h2

theorem getD_set_ne (l : List Event) (i j : Nat) (p : Event) (hij : i ≠ j) :
    (l.set i p).getD j default = l.getD j default := by
  simp [List.getD_eq_getElem?_getD, List.getElem?_set_ne hij]

theorem multiset_double_set (l : List Event) (i j : Nat) (b : Event)
    (hij : i ≠ j) (hi : i < l.length) (hj : j < l.length) :
    (↑((l.set i (l.getD j default)).set j b) : Multiset Event) =
      ↑(l.set i b) := by
  have h1 := multiset_set (l.set i (l.getD j default)) j b default
    (by simpa using hj)
  rw [getD_set_ne l i j _ hij] at h1
  have h2 := multiset_set l i (l.getD j default) default hi
  have h3 := multiset_set l i b default hi
  rw [Multiset.ext]
  intro x
  have c1 := congrArg (Multiset.count x) h1
  have c2 := congrArg (Multiset.count x) h2
  have c3 := congrArg (Multiset.count x) h3
  simp only [Multiset.count_add] at c1 c2 c3
  omega

theorem siftdownLoop_multiset (pos : Nat) (heap : List Event) (startpos : Nat)
    (newitem : Event) (h : pos < heap.length) :
    (↑(siftdownLoop heap startpos pos newitem) : Multiset Event) =
      ↑(heap.set pos newitem) := by
  induction pos using Nat.strong_induction_on generalizing heap with
  | _ pos ih =>
    rw [siftdownLoop]
    by_cases hsp : startpos < pos
    · rw [dif_pos hsp]
      by_cases hlt : eventLT newitem (heap.getD ((pos - 1) / 2) default) = true
      · rw [if_pos hlt]
        have hpp : (pos - 1) / 2 < pos := by
          have h1 : 0 < pos := Nat.lt_of_le_of_lt (Nat.zero_le _) hsp
          omega
        rw [ih _ hpp _ (by simpa using Nat.lt_of_lt_of_le hpp (Nat.le_of_lt h))]
        exact multiset_double_set heap pos ((pos - 1) / 2) newitem
          (Nat.ne_of_gt hpp) h (Nat.lt_trans hpp h)
      · rw [if_neg hlt]
    · rw [dif_neg hsp]

theorem siftdown_multiset (heap : List Event) (startpos pos : Nat)
    (h : pos < heap.length) :
    (↑(siftdown heap startpos pos) : Multiset Event) = ↑heap := by
  rw [siftdown, siftdownLoop_multiset pos heap startpos _ h]
  have := multiset_set heap pos (heap.getD pos default) default h
  exact add_right_cancel this

theorem siftupLoop_multiset (fuel : Nat) (heap : List Event)
    (startpos pos : Nat) (newitem : Event) (h : pos < heap.length)
    (hfuel : heap.length - pos ≤ fuel) :
    (↑(siftupLoop heap startpos pos newitem) : Multiset Event) =
      ↑(heap.set pos newitem) := by
  induction fuel generalizing heap pos with
  | zero => omega
  | succ fuel ih =>
    rw [siftupLoop]
    by_cases hc : 2 * pos + 1 < heap.length
    · rw [dif_pos hc]
      set cp := if (2 * pos + 1 + 1 < heap.length &&
          !(eventLT (heap.getD (2 * pos + 1) default)
            (heap.getD (2 * pos + 1 + 1) default))) = true
        then 2 * pos + 1 + 1 else 2 * pos + 1 with hcp
      have hcp1 : 2 * pos + 1 ≤ cp := by
        rw [hcp]; split
        · omega
        · omega
      have hcp2 : cp < heap.length := by
        rw [hcp]; split
        · next hs =>
          have := (Bool.and_eq_true _ _).mp hs
          exact of_decide_eq_true this.1
        · exact hc
      have hpcp : pos < cp := by omega
      have hlen2 : (heap.set pos (heap.getD cp default)).length = heap.length :=
        List.length_set heap pos _
      rw [ih (heap.set pos (heap.getD cp default)) cp (hlen2 ▸ hcp2)
        (by rw [hlen2]; omega)]
      exact multiset_double_set heap pos cp newitem (Nat.ne_of_lt hpcp) h hcp2
    · rw [dif_neg hc]
      have hbase := siftdown_multiset (heap.set pos newitem) startpos pos
        (by simpa using h)
      simpa [siftdown] using hbase

theorem siftup_multiset (heap : List Event) (pos : Nat)
    (h : pos < heap.length) :
    (↑(siftup heap pos) : Multiset Event) = ↑heap := by
  rw [siftup, siftupLoop_multiset (heap.length - pos) heap pos pos _ h
    (Nat.le_refl _)]
  have := multiset_set heap pos (heap.getD pos default) default h
  exact add_right_cancel this

theorem heappush_multiset (heap : List Event) (item : Event) :
    (↑(heappush heap item) : Multiset Event) = item ::ₘ ↑heap := by
  rw [heappush, siftdown]
  have hlen : heap.length < (heap ++ [item]).length := by simp
  have hget : (heap ++ [item]).getD heap.length default = item := by
    simp [List.getD_eq_getElem?_getD]
  rw [hget, siftdownLoop_multiset heap.length _ 0 item hlen]
  have : (heap ++ [item]).set heap.length item = heap ++ [item] := by
    rw [List.set_eq_take_cons_drop item hlen]
    simp
  rw [this]
  simp

theorem heappop_multiset (heap : List Event) (e : Event) (rest : List Event)
    (h : heappop heap = some (e, rest)) :
    (↑heap : Multiset Event) = e ::ₘ ↑rest := by
  cases heap with
  | nil => simp [heappop] at h
  | cons a t =>
    simp only [heappop] at h
    by_cases hemp : ((a :: t).dropLast).isEmpty = true
    · rw [if_pos hemp] at h
      have ht : t = [] := by
        cases t with
        | nil => rfl
        | cons b u => simp [List.dropLast] at hemp
      subst ht
      simp only [Option.some.injEq, Prod.mk.injEq] at h
      obtain ⟨h1, h2⟩ := h
      subst h2
      simp at h1
      subst h1
      rfl
    · rw [if_neg hemp] at h
      simp only [Option.some.injEq, Prod.mk.injEq] at h
      obtain ⟨h1, h2⟩ := h
      have hne : (a :: t) ≠ [] := List.cons_ne_nil a t
      have hrest : 0 < ((a :: t).dropLast).length := by
        cases hh : (a :: t).dropLast with
        | nil => rw [hh] at hemp; simp at hemp
        | cons x xs => simp
      have hlen : 0 <
          ((a :: t).dropLast.set 0 ((a :: t).getLastD default)).length := by
        simpa using hrest
      have hms := siftup_multiset
        ((a :: t).dropLast.set 0 ((a :: t).getLastD default)) 0 hlen
      have hms2 := multiset_set ((a :: t).dropLast) 0
        ((a :: t).getLastD default) default hrest
      have hsplit : (↑(a :: t) : Multiset Event) =
          ↑((a :: t).dropLast) + {(a :: t).getLastD default} := by
        conv_lhs => rw [← List.dropLast_append_getLast hne]
        rw [← Multiset.coe_singleton, ← Multiset.coe_add]
        rw [List.getLastD_eq_getLast?, List.getLast?_eq_getLast _ hne]
        simp
      rw [hsplit, ← hms2, ← h2, hms, ← h1]
      rw [add_comm, Multiset.singleton_add]

/-! ## Characterization of the run-loop operations -/

/-- The record written by log_self for event e in state s. -/
def recOf (e : Event) (s : SimState) : LogRec :=
  ⟨e.timestamp, e.carId, e.personCount, e.kind, s.carQueue.length⟩

theorem next_event_none_iff (s : SimState) :
    next_event s = none ↔ s.eventQueue = [] := by
  rw [next_event]
  cases hq : s.eventQueue with
  | nil => simp [heappop]
  | cons a t =>
    simp only [heappop]
    by_cases hemp : ((a :: t).dropLast).isEmpty = true
    · rw [if_pos hemp]; simp
    · rw [if_neg hemp]; simp

theorem next_event_char (s : SimState) (e : Event) (s1 : SimState)
    (h : next_event s = some (e, s1)) :
    (↑s.eventQueue : Multiset Event) = e ::ₘ ↑s1.eventQueue ∧
      s1.carQueue = s.carQueue ∧ s1.trace = s.trace ∧
      s1.rng = s.rng ∧ s1.rngIdx = s.rngIdx := by
  rw [next_event] at h
  cases hh : heappop s.eventQueue with
  | none => rw [hh] at h; simp at h
  | some p =>
    rw [hh] at h
    obtain ⟨e2, q⟩ := p
    simp only [Option.some.injEq, Prod.mk.injEq] at h
    obtain ⟨h1, h2⟩ := h
    subst h1
    subst h2
    exact ⟨heappop_multiset _ _ _ hh, rfl, rfl, rfl, rfl⟩

theorem processEvent_arrival_char (e : Event) (s s2 : SimState)
    (hk : e.kind = EKind.arrival) (h : processEvent e s = some s2) :
    s2.trace = s.trace ++ [recOf e s] ∧ s2.rng = s.rng ∧
      ((MAX_CARS ≤ s.carQueue.length ∧ s2.eventQueue = s.eventQueue ∧
          s2.carQueue = s.carQueue) ∨
        (s.carQueue.length < MAX_CARS ∧
          s2.eventQueue =
            heappush s.eventQueue
              ⟨e.carId, e.timestamp, e.personCount, EKind.prereg⟩ ∧
          s2.carQueue = s.carQueue ++ [e.carId])) := by
  rw [processEvent, hk] at h
  unfold enqueue_car at h
  simp only [log_self, writeLog, car_count] at h
  by_cases hfull : MAX_CARS ≤ s.carQueue.length
  · rw [if_pos hfull] at h
    simp only [Option.some.injEq] at h
    subst h
    exact ⟨rfl, rfl, Or.inl ⟨hfull, rfl, rfl⟩⟩
  · rw [if_neg hfull] at h
    simp only [Option.some.injEq] at h
    subst h
    exact ⟨rfl, rfl, Or.inr ⟨Nat.lt_of_not_le hfull, rfl, rfl⟩⟩

theorem processEvent_prereg_char (e : Event) (s s2 : SimState)
    (hk : e.kind = EKind.prereg) (h : processEvent e s = some s2) :
    ∃ r, 60 ≤ r ∧ r ≤ 120 ∧
      s2.trace = s.trace ++ [recOf e s] ∧ s2.rng = s.rng ∧
      s2.carQueue = s.carQueue ∧
      s2.eventQueue =
        heappush s.eventQueue
          ⟨e.carId, e.timestamp + r, e.personCount, EKind.testing⟩ := by
  rw [processEvent, hk] at h
  simp only [randint, randintV, log_self, writeLog, add_event, car_count,
    Option.some.injEq] at h
  subst h
  refine ⟨60 + s.rng s.rngIdx % 61, Nat.le_add_right _ _, ?_, rfl, rfl, rfl, rfl⟩
  have : s.rng s.rngIdx % 61 < 61 := Nat.mod_lt _ (by omega)
  omega

theorem processEvent_testing_char (e : Event) (s s2 : SimState)
    (hk : e.kind = EKind.testing) (h : processEvent e s = some s2) :
    s2.trace = s.trace ++ [recOf e s] ∧ s2.rng = s.rng ∧
      s2.carQueue = s.carQueue ∧
      s2.eventQueue =
        heappush s.eventQueue
          ⟨e.carId, e.timestamp + 240 * e.personCount, e.personCount,
            EKind.departure⟩ := by
  rw [processEvent, hk] at h
  simp only [log_self, writeLog, add_event, car_count, Option.some.injEq] at h
  subst h
  exact ⟨rfl, rfl, rfl, rfl⟩

theorem processEvent_departure_char (e : Event) (s s2 : SimState)
    (hk : e.kind = EKind.departure) (h : processEvent e s = some s2) :
    e.carId ∈ s.carQueue ∧
      s2.trace = s.trace ++
        [⟨e.timestamp, e.carId, e.personCount, e.kind,
          (s.carQueue.erase e.carId).length⟩] ∧
      s2.rng = s.rng ∧ s2.carQueue = s.carQueue.erase e.carId ∧
      s2.eventQueue = s.eventQueue := by
  rw [processEvent, hk] at h
  rw [dequeue_car] at h
  by_cases hmem : e.carId ∈ s.carQueue
  · rw [if_pos hmem] at h
    simp only [log_self, writeLog, car_count, Option.some.injEq] at h
    subst h
    exact ⟨hmem, rfl, rfl, rfl, rfl⟩
  · rw [if_neg hmem] at h
    simp at h

theorem processEvent_departure_none (e : Event) (s : SimState)
    (hk : e.kind = EKind.departure) (hmem : e.carId ∉ s.carQueue) :
    processEvent e s = none := by
  rw [processEvent, hk, dequeue_car, if_neg hmem]


/-! ## Characterization of the seeded initial queue -/

/-- The arrival time of the i-th seeded car: the first time is the draw at
stream position 0 in 30..120, and each following time adds the step drawn at
stream position 2*i+2 in 30..120 (the seeding loop consumes two draws per
iteration: person count, then step). -/
def arrTime (g : Nat → Nat) : Nat → Nat
  | 0 => randintV g 0 30 120
  | Nat.succ i => arrTime g i + randintV g (2 * i + 2) 30 120

/-- The person count of the i-th seeded car: the draw at stream position
2*i+1 in 1..5. -/
def seedPC (g : Nat → Nat) (i : Nat) : Nat := randintV g (2 * i + 1) 1 5

/-- The i-th seeded arrival event. -/
def evOf (g : Nat → Nat) (i : Nat) : Event :=
  ⟨i, arrTime g i, seedPC g i, EKind.arrival⟩

/-- The list of arrival events the seeding loop creates from iteration i on. -/
def seedEvents (g : Nat → Nat) (i : Nat) : List Event :=
  if arrTime g i ≤ MAX_ARRIVAL_TIME then
    evOf g i :: seedEvents g (i + 1)
  else
    []
termination_by MAX_ARRIVAL_TIME + 1 - arrTime g i
decreasing_by
  have h30 : 30 ≤ randintV g (2 * i + 2) 30 120 := Nat.le_add_right _ _
  simp only [arrTime]
  omega

theorem randintV_le (g : Nat → Nat) (k lo hi : Nat) (h : lo ≤ hi) :
    lo ≤ randintV g k lo hi ∧ randintV g k lo hi ≤ hi := by
  refine ⟨Nat.le_add_right _ _, ?_⟩
  have : g k % (hi + 1 - lo) < hi + 1 - lo := Nat.mod_lt _ (by omega)
  simp only [randintV]
  omega

theorem arrTime_step (g : Nat → Nat) (i : Nat) :
    arrTime g i + 30 ≤ arrTime g (i + 1) ∧
      arrTime g (i + 1) ≤ arrTime g i + 120 := by
  have := randintV_le g (2 * i + 2) 30 120 (by omega)
  simp only [arrTime]
  omega

theorem arrTime_strict_mono (g : Nat → Nat) (i j : Nat) (h : i < j) :
    arrTime g i < arrTime g j := by
  induction j with
  | zero => omega
  | succ j ih =>
    have hstep := arrTime_step g j
    rcases Nat.lt_succ_iff_lt_or_eq.mp h with h2 | h2
    · exact Nat.lt_trans (ih h2) (by omega)
    · subst h2; omega

theorem seedEvents_mem (g : Nat → Nat) (i : Nat) (e : Event)
    (h : e ∈ seedEvents g i) :
    i ≤ e.carId ∧ arrTime g e.carId ≤ MAX_ARRIVAL_TIME ∧ e = evOf g e.carId := by
  revert h
  have H : ∀ n j, MAX_ARRIVAL_TIME + 1 - arrTime g j ≤ n →
      e ∈ seedEvents g j →
      j ≤ e.carId ∧ arrTime g e.carId ≤ MAX_ARRIVAL_TIME ∧
        e = evOf g e.carId := by
    intro n
    induction n with
    | zero =>
      intro j hn h
      rw [seedEvents, if_neg (by omega)] at h
      simp at h
    | succ n ih =>
      intro j hn h
      rw [seedEvents] at h
      by_cases hle : arrTime g j ≤ MAX_ARRIVAL_TIME
      · rw [if_pos hle] at h
        rcases List.mem_cons.mp h with h1 | h1
        · subst h1
          exact ⟨Nat.le_refl _, hle, rfl⟩
        · have hstep := arrTime_step g j
          obtain ⟨ha, hb, hc⟩ := ih (j + 1) (by omega) h1
          exact ⟨by omega, hb, hc⟩
      · rw [if_neg hle] at h
        simp at h
  exact H (MAX_ARRIVAL_TIME + 1 - arrTime g i) i (Nat.le_refl _)

theorem arrTime_mono (g : Nat → Nat) (i j : Nat) (h : i ≤ j) :
    arrTime g i ≤ arrTime g j := by
  rcases Nat.lt_or_ge i j with h2 | h2
  · exact Nat.le_of_lt (arrTime_strict_mono g i j h2)
  · have : i = j := by omega
    subst this
    exact Nat.le_refl _

theorem seedEvents_filter (g : Nat → Nat) (i id : Nat) :
    (seedEvents g i).filter (fun e => e.carId == id) =
      if i ≤ id ∧ arrTime g id ≤ MAX_ARRIVAL_TIME then [evOf g id] else [] := by
  have H : ∀ n j, MAX_ARRIVAL_TIME + 1 - arrTime g j ≤ n →
      (seedEvents g j).filter (fun e => e.carId == id) =
        if j ≤ id ∧ arrTime g id ≤ MAX_ARRIVAL_TIME then [evOf g id]
        else [] := by
    intro n
    induction n with
    | zero =>
      intro j hn
      rw [seedEvents, if_neg (by omega)]
      rw [if_neg (by
        rintro ⟨hji, hid⟩
        have := arrTime_mono g j id hji
        omega)]
      rfl
    | succ n ih =>
      intro j hn
      rw [seedEvents]
      by_cases hle : arrTime g j ≤ MAX_ARRIVAL_TIME
      · rw [if_pos hle]
        have hstep := arrTime_step g j
        by_cases hjid : j = id
        · subst hjid
          rw [List.filter_cons]
          simp only [evOf, beq_self_eq_true, if_true]
          have htail : (seedEvents g (j + 1)).filter
              (fun e => e.carId == j) = [] := by
            rw [List.filter_eq_nil_iff]
            intro e he
            obtain ⟨ha, _, _⟩ := seedEvents_mem g (j + 1) e he
            simp only [beq_iff_eq]
            omega
          rw [htail, if_pos ⟨Nat.le_refl _, hle⟩]
        · rw [List.filter_cons]
          have hne : ((evOf g j).carId == id) = false := by
            simp only [evOf, beq_eq_false_iff_ne]
            exact hjid
          rw [hne]
          simp only [Bool.false_eq_true, if_false]
          rw [ih (j + 1) (by omega)]
          by_cases hcase : j ≤ id ∧ arrTime g id ≤ MAX_ARRIVAL_TIME
          · rw [if_pos ⟨by omega, hcase.2⟩, if_pos hcase]
          · rw [if_neg (by
              rintro ⟨h1, h2⟩
              exact hcase ⟨by omega, h2⟩), if_neg hcase]
      · rw [if_neg hle]
        rw [if_neg (by
          rintro ⟨hji, hid⟩
          have := arrTime_mono g j id hji
          omega)]
        rfl
  exact H (MAX_ARRIVAL_TIME + 1 - arrTime g i) i (Nat.le_refl _)

theorem seedLoop_multiset (g : Nat → Nat) (n j : Nat) (q : List Event)
    (hn : MAX_ARRIVAL_TIME + 1 - arrTime g j ≤ n) :
    (↑(seedLoop g (2 * j + 1) (arrTime g j) j q).1 : Multiset Event) =
      ↑q + ↑(seedEvents g j) := by
  induction n generalizing j q with
  | zero =>
    rw [seedLoop, if_neg (by omega), seedEvents, if_neg (by omega)]
    simp
  | succ n ih =>
    rw [seedLoop, seedEvents]
    by_cases hle : arrTime g j ≤ MAX_ARRIVAL_TIME
    · rw [if_pos hle, if_pos hle]
      dsimp only
      have hstep := arrTime_step g j
      have harr : arrTime g j + randintV g (2 * j + 1 + 1) 30 120 =
          arrTime g (j + 1) := by
        have : 2 * j + 1 + 1 = 2 * j + 2 := by omega
        rw [this]
        rfl
      have hk : 2 * j + 1 + 2 = 2 * (j + 1) + 1 := by omega
      rw [harr, hk]
      rw [ih (j + 1) _ (by omega)]
      rw [heappush_multiset]
      have hpc : randintV g (2 * j + 1) 1 5 = seedPC g j := rfl
      rw [hpc]
      have : (⟨j, arrTime g j, seedPC g j, EKind.arrival⟩ : Event) =
          evOf g j := rfl
      rw [this]
      simp only [← Multiset.cons_coe]
      rw [Multiset.cons_add, Multiset.add_cons]
    · rw [if_neg hle, if_neg hle]
      simp

theorem initState_char (g : Nat → Nat) :
    (↑(initState g).eventQueue : Multiset Event) = ↑(seedEvents g 0) ∧
      (initState g).carQueue = [] ∧ (initState g).trace = [] ∧
      (initState g).rng = g := by
  refine ⟨?_, rfl, rfl, rfl⟩
  have h0 : randintV g 0 30 120 = arrTime g 0 := rfl
  simp only [initState, h0]
  have := seedLoop_multiset g (MAX_ARRIVAL_TIME + 1 - arrTime g 0) 0 []
    (Nat.le_refl _)
  simpa using this

theorem seedEvents_map_carId_nodup (g : Nat → Nat) (i : Nat) :
    ((seedEvents g i).map Event.carId).Nodup := by
  have H : ∀ n j, MAX_ARRIVAL_TIME + 1 - arrTime g j ≤ n →
      ((seedEvents g j).map Event.carId).Nodup := by
    intro n
    induction n with
    | zero =>
      intro j hn
      rw [seedEvents, if_neg (by omega)]
      simp
    | succ n ih =>
      intro j hn
      rw [seedEvents]
      by_cases hle : arrTime g j ≤ MAX_ARRIVAL_TIME
      · rw [if_pos hle]
        have hstep := arrTime_step g j
        rw [List.map_cons, List.nodup_cons]
        refine ⟨?_, ih (j + 1) (by omega)⟩
        intro hmem
        obtain ⟨e, he, heq⟩ := List.mem_map.mp hmem
        obtain ⟨ha, _, _⟩ := seedEvents_mem g (j + 1) e he
        simp only [evOf] at heq
        omega
      · rw [if_neg hle]
        simp
  exact H (MAX_ARRIVAL_TIME + 1 - arrTime g i) i (Nat.le_refl _)

theorem seedEvents_zero_head (g : Nat → Nat) :
    seedEvents g 0 = evOf g 0 :: seedEvents g 1 := by
  have h0 := randintV_le g 0 30 120 (by omega)
  rw [seedEvents, if_pos ?_]
  have : arrTime g 0 = randintV g 0 30 120 := rfl
  rw [this]
  simp only [MAX_ARRIVAL_TIME]
  omega

theorem initQueue_mem_iff (g : Nat → Nat) (e : Event) :
    e ∈ (initState g).eventQueue ↔ e ∈ seedEvents g 0 := by
  have h := (initState_char g).1
  constructor
  · intro hm
    have : e ∈ (↑(initState g).eventQueue : Multiset Event) := by
      simpa using hm
    rw [h] at this
    simpa using this
  · intro hm
    have : e ∈ (↑(seedEvents g 0) : Multiset Event) := by simpa using hm
    rw [← h] at this
    simpa using this

/-! ## The heap ordering invariant and the minimality of the popped event -/

/-- The binary min-heap property on the underlying list: every non-root
position is at least its parent, comparing by timestamp as the event
comparators do. -/
def heapInv (l : List Event) : Prop :=
  ∀ j, j < l.length → 0 < j →
    (l.getD ((j - 1) / 2) default).timestamp ≤ (l.getD j default).timestamp

theorem heapInv_root_min (l : List Event) (h : heapInv l) (k : Nat)
    (hk : k < l.length) :
    (l.getD 0 default).timestamp ≤ (l.getD k default).timestamp := by
  induction k using Nat.strong_induction_on with
  | _ k ih =>
    rcases Nat.eq_zero_or_pos k with h0 | h0
    · subst h0
      exact Nat.le_refl _
    · have hpar : (k - 1) / 2 < k := by omega
      exact Nat.le_trans
        (ih ((k - 1) / 2) hpar (Nat.lt_trans hpar hk))
        (h k hk h0)

theorem heappop_min (l : List Event) (hinv : heapInv l) (hne : l ≠ []) :
    ∃ e rest, heappop l = some (e, rest) ∧ e ∈ l ∧
      (∀ x ∈ l, e.timestamp ≤ x.timestamp) := by
  have hlen : 0 < l.length := List.length_pos.mpr hne
  have hmin : ∀ x ∈ l, (l.getD 0 default).timestamp ≤ x.timestamp := by
    intro x hx
    obtain ⟨k, hk, hkx⟩ := List.mem_iff_getElem.mp hx
    have hr := heapInv_root_min l hinv k hk
    rw [List.getD_eq_getElem l default hk, hkx] at hr
    exact hr
  have hmem : l.getD 0 default ∈ l := by
    rw [List.getD_eq_getElem l default hlen]
    exact List.getElem_mem hlen
  cases l with
  | nil => exact absurd rfl hne
  | cons a t =>
    by_cases hemp : ((a :: t).dropLast).isEmpty = true
    · have ht : t = [] := by
        cases t with
        | nil => rfl
        | cons b u => simp [List.dropLast] at hemp
      subst ht
      refine ⟨a, [], ?_, List.mem_singleton_self a, ?_⟩
      · rw [heappop, if_pos hemp]
        rfl
      · intro x hx
        rw [List.mem_singleton] at hx
        subst hx
        exact Nat.le_refl _
    · refine ⟨(a :: t).dropLast.getD 0 default,
        siftup ((a :: t).dropLast.set 0 ((a :: t).getLastD default)) 0,
        ?_, ?_, ?_⟩
      · rw [heappop, if_neg hemp]
      · have hdlen : 0 < ((a :: t).dropLast).length := by
          cases hh : (a :: t).dropLast with
          | nil => rw [hh] at hemp; simp at hemp
          | cons x xs => simp
        have : (a :: t).dropLast.getD 0 default = (a :: t).getD 0 default := by
          rw [List.getD_eq_getElem _ default hdlen,
            List.getD_eq_getElem _ default hlen]
          exact List.getElem_dropLast _ 0 hdlen
        rw [this]
        exact hmem
      · have hdlen : 0 < ((a :: t).dropLast).length := by
          cases hh : (a :: t).dropLast with
          | nil => rw [hh] at hemp; simp at hemp
          | cons x xs => simp
        have heq : (a :: t).dropLast.getD 0 default = (a :: t).getD 0 default := by
          rw [List.getD_eq_getElem _ default hdlen,
            List.getD_eq_getElem _ default hlen]
          exact List.getElem_dropLast _ 0 hdlen
        rw [heq]
        exact hmin

/-! ## Per-car phase invariant of the run loop

Each seeded car walks the chain ARRIVAL, then either rejection, or
PREREGISTRATION, TESTING, DEPARTURE. The invariant records, for every car id,
which point of the chain it has reached, through three projections of the
state: the multiset of its pending events, the list of its trace records, and
its multiplicity in the car queue. -/

/-- The pending events of car id in an event-queue multiset. -/
def pendQ (q : Multiset Event) (id : Nat) : Multiset Event :=
  q.filter (fun e => e.carId = id)

/-- The trace records of car id. -/
def recsF (tr : List LogRec) (id : Nat) : List LogRec :=
  tr.filter (fun r => r.carId == id)

/-- The PREREGISTRATION event scheduled for car id when it is admitted. -/
def pregEv (g : Nat → Nat) (id : Nat) : Event :=
  ⟨id, arrTime g id, seedPC g id, EKind.prereg⟩

/-- The TESTING event scheduled for car id with preregistration delay r. -/
def testEv (g : Nat → Nat) (id r : Nat) : Event :=
  ⟨id, arrTime g id + r, seedPC g id, EKind.testing⟩

/-- The DEPARTURE event scheduled for car id with preregistration delay r. -/
def depEv (g : Nat → Nat) (id r : Nat) : Event :=
  ⟨id, arrTime g id + r + 240 * seedPC g id, seedPC g id, EKind.departure⟩

/-- The ARRIVAL record of car id, logged with car count c. -/
def arrRec (g : Nat → Nat) (id c : Nat) : LogRec :=
  ⟨arrTime g id, id, seedPC g id, EKind.arrival, c⟩

/-- The PREREGISTRATION record of car id. -/
def preRec (g : Nat → Nat) (id c : Nat) : LogRec :=
  ⟨arrTime g id, id, seedPC g id, EKind.prereg, c⟩

/-- The TESTING record of car id with preregistration delay r. -/
def testRec (g : Nat → Nat) (id r c : Nat) : LogRec :=
  ⟨arrTime g id + r, id, seedPC g id, EKind.testing, c⟩

/-- The DEPARTURE record of car id with preregistration delay r. -/
def depRec (g : Nat → Nat) (id r c : Nat) : LogRec :=
  ⟨arrTime g id + r + 240 * seedPC g id, id, seedPC g id, EKind.departure, c⟩

/-- The six phases a seeded car id can be in, as a predicate on the three
projections of the state belonging to id: waiting for arrival, rejected,
admitted awaiting preregistration, awaiting testing, awaiting departure,
done. -/
def PhaseOf (g : Nat → Nat) (id : Nat) (pend : Multiset Event)
    (recs : List LogRec) (c : Nat) : Prop :=
  (pend = {evOf g id} ∧ recs = [] ∧ c = 0) ∨
  (pend = 0 ∧ (∃ c1, recs = [arrRec g id c1]) ∧ c = 0) ∨
  (pend = {pregEv g id} ∧ (∃ c1, recs = [arrRec g id c1]) ∧ c = 1) ∨
  (∃ r, 60 ≤ r ∧ r ≤ 120 ∧ pend = {testEv g id r} ∧
    (∃ c1 c2, recs = [arrRec g id c1, preRec g id c2]) ∧ c = 1) ∨
  (∃ r, 60 ≤ r ∧ r ≤ 120 ∧ pend = {depEv g id r} ∧
    (∃ c1 c2 c3, recs = [arrRec g id c1, preRec g id c2, testRec g id r c3]) ∧
    c = 1) ∨
  (∃ r, 60 ≤ r ∧ r ≤ 120 ∧ pend = 0 ∧
    (∃ c1 c2 c3 c4, recs = [arrRec g id c1, preRec g id c2, testRec g id r c3,
      depRec g id r c4]) ∧ c = 0)

/-- The invariant for one id: a seeded id is in one of the six phases, an
unseeded id has no events, no records and no car-queue entry. -/
def IdInv (g : Nat → Nat) (id : Nat) (pend : Multiset Event)
    (recs : List LogRec) (c : Nat) : Prop :=
  if arrTime g id ≤ MAX_ARRIVAL_TIME then PhaseOf g id pend recs c
  else pend = 0 ∧ recs = [] ∧ c = 0

/-- The run-loop invariant. -/
def RunInv (g : Nat → Nat) (s : SimState) : Prop :=
  ∀ id, IdInv g id (pendQ (↑s.eventQueue) id) (recsF s.trace id)
    (s.carQueue.count id)

theorem pendQ_cons (e : Event) (q : Multiset Event) (id : Nat) :
    pendQ (e ::ₘ q) id = (if e.carId = id then {e} else 0) + pendQ q id := by
  rw [pendQ, Multiset.filter_cons, pendQ]

theorem pendQ_cons_ne (e : Event) (q : Multiset Event) (id : Nat)
    (h : e.carId ≠ id) : pendQ (e ::ₘ q) id = pendQ q id := by
  rw [pendQ_cons, if_neg h, zero_add]

theorem recsF_append (tr : List LogRec) (r : LogRec) (id : Nat) :
    recsF (tr ++ [r]) id =
      recsF tr id ++ (if r.carId = id then [r] else []) := by
  rw [recsF, List.filter_append, recsF]
  by_cases h : r.carId = id
  · rw [if_pos h]
    simp [List.filter, h]
  · rw [if_neg h]
    simp only [List.filter, beq_eq_false_iff_ne]
    have : (r.carId == id) = false := by
      simp only [beq_eq_false_iff_ne]
      exact h
    rw [this]

theorem singleton_eq_cons_add (x e : Event) (m : Multiset Event)
    (h : ({x} : Multiset Event) = {e} + m) : m = 0 ∧ x = e := by
  have hc := congrArg Multiset.card h
  simp only [Multiset.card_singleton, Multiset.card_add] at hc
  have hm : m = 0 := Multiset.card_eq_zero.mp (by omega)
  subst hm
  rw [add_zero] at h
  exact ⟨rfl, Multiset.singleton_inj.mp h⟩

theorem mem_pendQ (q : Multiset Event) (e : Event) (hm : e ∈ q) :
    e ∈ pendQ q e.carId := by
  rw [pendQ, Multiset.mem_filter]
  exact ⟨hm, rfl⟩

theorem RunInv_init (g : Nat → Nat) : RunInv g (initState g) := by
  intro id
  obtain ⟨hq, hcar, htr, _⟩ := initState_char g
  have hpend : pendQ (↑(initState g).eventQueue) id =
      ↑(if 0 ≤ id ∧ arrTime g id ≤ MAX_ARRIVAL_TIME then [evOf g id]
        else []) := by
    rw [pendQ, hq, Multiset.filter_coe]
    have hcongr : List.filter (fun e => decide (e.carId = id))
        (seedEvents g 0) =
        List.filter (fun e => e.carId == id) (seedEvents g 0) :=
      List.filter_congr (fun e _ => by rw [Bool.eq_iff_iff]; simp)
    rw [hcongr, seedEvents_filter g 0 id]
  rw [IdInv, hcar, htr]
  by_cases hle : arrTime g id ≤ MAX_ARRIVAL_TIME
  · rw [if_pos hle]
    rw [if_pos ⟨Nat.zero_le id, hle⟩] at hpend
    left
    refine ⟨?_, rfl, rfl⟩
    rw [hpend]
    rfl
  · rw [if_neg hle]
    rw [if_neg (by
      rintro ⟨_, hbad⟩
      exact hle hbad)] at hpend
    refine ⟨?_, rfl, rfl⟩
    rw [hpend]
    rfl

theorem phase_pend_arrival (g : Nat → Nat) (id : Nat) (pend : Multiset Event)
    (recs : List LogRec) (c : Nat) (hp : PhaseOf g id pend recs c) (e : Event)
    (he : e ∈ pend) (hk : e.kind = EKind.arrival) :
    e = evOf g id ∧ pend = {evOf g id} ∧ recs = [] ∧ c = 0 := by
  rcases hp with ⟨h1, h2, h3⟩ | ⟨h1, _, _⟩ | ⟨h1, _, _⟩ |
    ⟨r, _, _, h1, _, _⟩ | ⟨r, _, _, h1, _, _⟩ | ⟨r, _, _, h1, _, _⟩
  · rw [h1] at he
    exact ⟨Multiset.mem_singleton.mp he, h1, h2, h3⟩
  · rw [h1] at he
    exact absurd he (Multiset.not_mem_zero e)
  · rw [h1] at he
    have := Multiset.mem_singleton.mp he
    rw [this] at hk
    exact absurd hk (by simp [pregEv])
  · rw [h1] at he
    have := Multiset.mem_singleton.mp he
    rw [this] at hk
    exact absurd hk (by simp [testEv])
  · rw [h1] at he
    have := Multiset.mem_singleton.mp he
    rw [this] at hk
    exact absurd hk (by simp [depEv])
  · rw [h1] at he
    exact absurd he (Multiset.not_mem_zero e)

theorem phase_pend_prereg (g : Nat → Nat) (id : Nat) (pend : Multiset Event)
    (recs : List LogRec) (c : Nat) (hp : PhaseOf g id pend recs c) (e : Event)
    (he : e ∈ pend) (hk : e.kind = EKind.prereg) :
    e = pregEv g id ∧ pend = {pregEv g id} ∧
      (∃ c1, recs = [arrRec g id c1]) ∧ c = 1 := by
  rcases hp with ⟨h1, _, _⟩ | ⟨h1, _, _⟩ | ⟨h1, h2, h3⟩ |
    ⟨r, _, _, h1, _, _⟩ | ⟨r, _, _, h1, _, _⟩ | ⟨r, _, _, h1, _, _⟩
  · rw [h1] at he
    have := Multiset.mem_singleton.mp he
    rw [this] at hk
    exact absurd hk (by simp [evOf])
  · rw [h1] at he
    exact absurd he (Multiset.not_mem_zero e)
  · rw [h1] at he
    exact ⟨Multiset.mem_singleton.mp he, h1, h2, h3⟩
  · rw [h1] at he
    have := Multiset.mem_singleton.mp he
    rw [this] at hk
    exact absurd hk (by simp [testEv])
  · rw [h1] at he
    have := Multiset.mem_singleton.mp he
    rw [this] at hk
    exact absurd hk (by simp [depEv])
  · rw [h1] at he
    exact absurd he (Multiset.not_mem_zero e)

theorem phase_pend_testing (g : Nat → Nat) (id : Nat) (pend : Multiset Event)
    (recs : List LogRec) (c : Nat) (hp : PhaseOf g id pend recs c) (e : Event)
    (he : e ∈ pend) (hk : e.kind = EKind.testing) :
    ∃ r, 60 ≤ r ∧ r ≤ 120 ∧ e = testEv g id r ∧ pend = {testEv g id r} ∧
      (∃ c1 c2, recs = [arrRec g id c1, preRec g id c2]) ∧ c = 1 := by
  rcases hp with ⟨h1, _, _⟩ | ⟨h1, _, _⟩ | ⟨h1, _, _⟩ |
    ⟨r, hr1, hr2, h1, h2, h3⟩ | ⟨r, _, _, h1, _, _⟩ | ⟨r, _, _, h1, _, _⟩
  · rw [h1] at he
    have := Multiset.mem_singleton.mp he
    rw [this] at hk
    exact absurd hk (by simp [evOf])
  · rw [h1] at he
    exact absurd he (Multiset.not_mem_zero e)
  · rw [h1] at he
    have := Multiset.mem_singleton.mp he
    rw [this] at hk
    exact absurd hk (by simp [pregEv])
  · rw [h1] at he
    exact ⟨r, hr1, hr2, Multiset.mem_singleton.mp he, h1, h2, h3⟩
  · rw [h1] at he
    have := Multiset.mem_singleton.mp he
    rw [this] at hk
    exact absurd hk (by simp [depEv])
  · rw [h1] at he
    exact absurd he (Multiset.not_mem_zero e)

theorem phase_pend_departure (g : Nat → Nat) (id : Nat) (pend : Multiset Event)
    (recs : List LogRec) (c : Nat) (hp : PhaseOf g id pend recs c) (e : Event)
    (he : e ∈ pend) (hk : e.kind = EKind.departure) :
    ∃ r, 60 ≤ r ∧ r ≤ 120 ∧ e = depEv g id r ∧ pend = {depEv g id r} ∧
      (∃ c1 c2 c3, recs = [arrRec g id c1, preRec g id c2,
        testRec g id r c3]) ∧ c = 1 := by
  rcases hp with ⟨h1, _, _⟩ | ⟨h1, _, _⟩ | ⟨h1, _, _⟩ |
    ⟨r, _, _, h1, _, _⟩ | ⟨r, hr1, hr2, h1, h2, h3⟩ | ⟨r, _, _, h1, _, _⟩
  · rw [h1] at he
    have := Multiset.mem_singleton.mp he
    rw [this] at hk
    exact absurd hk (by simp [evOf])
  · rw [h1] at he
    exact absurd he (Multiset.not_mem_zero e)
  · rw [h1] at he
    have := Multiset.mem_singleton.mp he
    rw [this] at hk
    exact absurd hk (by simp [pregEv])
  · rw [h1] at he
    have := Multiset.mem_singleton.mp he
    rw [this] at hk
    exact absurd hk (by simp [testEv])
  · rw [h1] at he
    exact ⟨r, hr1, hr2, Multiset.mem_singleton.mp he, h1, h2, h3⟩
  · rw [h1] at he
    exact absurd he (Multiset.not_mem_zero e)

theorem pendQ_push (q : List Event) (x : Event) (id : Nat) :
    pendQ (↑(heappush q x)) id =
      (if x.carId = id then {x} else 0) + pendQ (↑q) id := by
  rw [heappush_multiset, pendQ_cons]

theorem popped_classify (g : Nat → Nat) (s s1 : SimState) (e : Event)
    (hInv : RunInv g s)
    (hq : (↑s.eventQueue : Multiset Event) = e ::ₘ ↑s1.eventQueue) :
    arrTime g e.carId ≤ MAX_ARRIVAL_TIME ∧
      PhaseOf g e.carId (pendQ (↑s.eventQueue) e.carId)
        (recsF s.trace e.carId) (s.carQueue.count e.carId) ∧
      e ∈ pendQ (↑s.eventQueue) e.carId ∧
      pendQ (↑s.eventQueue) e.carId =
        {e} + pendQ (↑s1.eventQueue) e.carId := by
  have hmem : e ∈ pendQ (↑s.eventQueue) e.carId := by
    apply mem_pendQ
    rw [hq]
    exact Multiset.mem_cons_self e _
  have hsplit : pendQ (↑s.eventQueue) e.carId =
      {e} + pendQ (↑s1.eventQueue) e.carId := by
    rw [hq, pendQ_cons, if_pos rfl]
  have hIdInv0 := hInv e.carId
  rw [IdInv] at hIdInv0
  by_cases hseed : arrTime g e.carId ≤ MAX_ARRIVAL_TIME
  · rw [if_pos hseed] at hIdInv0
    exact ⟨hseed, hIdInv0, hmem, hsplit⟩
  · rw [if_neg hseed] at hIdInv0
    rw [hIdInv0.1] at hmem
    exact absurd hmem (Multiset.not_mem_zero e)

theorem IdInv_untouched (g : Nat → Nat) (id : Nat) (s s1 s2 : SimState)
    (e : Event) (hInv : RunInv g s)
    (hq : (↑s.eventQueue : Multiset Event) = e ::ₘ ↑s1.eventQueue)
    (hid : id ≠ e.carId)
    (hpend : pendQ (↑s2.eventQueue) id = pendQ (↑s1.eventQueue) id)
    (hrecs : recsF s2.trace id = recsF s.trace id)
    (hcnt : s2.carQueue.count id = s.carQueue.count id) :
    IdInv g id (pendQ (↑s2.eventQueue) id) (recsF s2.trace id)
      (s2.carQueue.count id) := by
  have hpe : pendQ (↑s.eventQueue) id = pendQ (↑s1.eventQueue) id := by
    rw [hq, pendQ_cons_ne e _ id (fun hc => hid hc.symm)]
  rw [hpend, ← hpe, hrecs, hcnt]
  exact hInv id

theorem RunInv_step_arrival (g : Nat → Nat) (s s1 s2 : SimState) (e : Event)
    (hInv : RunInv g s)
    (hq : (↑s.eventQueue : Multiset Event) = e ::ₘ ↑s1.eventQueue)
    (hcar : s1.carQueue = s.carQueue) (htr : s1.trace = s.trace)
    (hek : e.kind = EKind.arrival) (hpe : processEvent e s1 = some s2) :
    RunInv g s2 := by
  obtain ⟨hseed, hphase, hmem, hsplit⟩ := popped_classify g s s1 e hInv hq
  obtain ⟨heq, hpend, hrecs, hcnt⟩ :=
    phase_pend_arrival g e.carId _ _ _ hphase e hmem hek
  obtain ⟨hzero, _⟩ : pendQ (↑s1.eventQueue) e.carId = 0 ∧ evOf g e.carId = e :=
    singleton_eq_cons_add _ e _ (by rw [← hpend, hsplit])
  obtain ⟨htr2, _, hbranch⟩ := processEvent_arrival_char e s1 s2 hek hpe
  have hrec : recOf e s1 = arrRec g e.carId s.carQueue.length := by
    rw [recOf, arrRec, hcar, heq]
    rfl
  rcases hbranch with ⟨hfull, hq2, hcar2⟩ | ⟨hroom, hq2, hcar2⟩
  · intro id
    by_cases hid : id = e.carId
    · subst hid
      rw [IdInv, if_pos hseed]
      right; left
      refine ⟨?_, ⟨s.carQueue.length, ?_⟩, ?_⟩
      · rw [hq2]
        exact hzero
      · rw [htr2, htr, recsF_append, hrecs, hrec]
        rw [if_pos (show (arrRec g e.carId s.carQueue.length).carId = e.carId
          from rfl)]
        rw [List.nil_append]
      · rw [hcar2, hcar]
        exact hcnt
    · refine IdInv_untouched g id s s1 s2 e hInv hq hid ?_ ?_ ?_
      · rw [hq2]
      · rw [htr2, htr, recsF_append,
          if_neg (show ¬ (recOf e s1).carId = id from fun hc => hid hc.symm),
          List.append_nil]
      · rw [hcar2, hcar]
  · intro id
    by_cases hid : id = e.carId
    · subst hid
      rw [IdInv, if_pos hseed]
      right; right; left
      refine ⟨?_, ⟨s.carQueue.length, ?_⟩, ?_⟩
      · rw [hq2, pendQ_push,
          if_pos (show (⟨e.carId, e.timestamp, e.personCount,
            EKind.prereg⟩ : Event).carId = e.carId from rfl), hzero, add_zero]
        rw [heq]
        rfl
      · rw [htr2, htr, recsF_append, hrecs, hrec]
        rw [if_pos (show (arrRec g e.carId s.carQueue.length).carId = e.carId
          from rfl)]
        rw [List.nil_append]
      · rw [hcar2, hcar, List.count_append]
        simp [hcnt]
    · refine IdInv_untouched g id s s1 s2 e hInv hq hid ?_ ?_ ?_
      · rw [hq2, pendQ_push,
          if_neg (show ¬ (⟨e.carId, e.timestamp, e.personCount,
            EKind.prereg⟩ : Event).carId = id from fun hc => hid hc.symm),
          zero_add]
      · rw [htr2, htr, recsF_append,
          if_neg (show ¬ (recOf e s1).carId = id from fun hc => hid hc.symm),
          List.append_nil]
      · rw [hcar2, hcar, List.count_append]
        have : [e.carId].count id = 0 := by
          rw [List.count_singleton]
          simp only [beq_iff_eq]
          rw [if_neg (fun hc => hid (by omega))]
        rw [this, Nat.add_zero]

theorem RunInv_step_prereg (g : Nat → Nat) (s s1 s2 : SimState) (e : Event)
    (hInv : RunInv g s)
    (hq : (↑s.eventQueue : Multiset Event) = e ::ₘ ↑s1.eventQueue)
    (hcar : s1.carQueue = s.carQueue) (htr : s1.trace = s.trace)
    (hek : e.kind = EKind.prereg) (hpe : processEvent e s1 = some s2) :
    RunInv g s2 := by
  obtain ⟨hseed, hphase, hmem, hsplit⟩ := popped_classify g s s1 e hInv hq
  obtain ⟨heq, hpend, hex, hcnt⟩ :=
    phase_pend_prereg g e.carId _ _ _ hphase e hmem hek
  obtain ⟨c1, hrecs⟩ := hex
  obtain ⟨hzero, _⟩ : pendQ (↑s1.eventQueue) e.carId = 0 ∧ pregEv g e.carId = e :=
    singleton_eq_cons_add _ e _ (by rw [← hpend, hsplit])
  obtain ⟨r, hr1, hr2, htr2, _, hcar2, hq2⟩ :=
    processEvent_prereg_char e s1 s2 hek hpe
  have hrec : recOf e s1 = preRec g e.carId s.carQueue.length := by
    rw [recOf, preRec, hcar, heq]
    rfl
  have hpush : (⟨e.carId, e.timestamp + r, e.personCount,
      EKind.testing⟩ : Event) = testEv g e.carId r := by
    rw [heq]
    rfl
  intro id
  by_cases hid : id = e.carId
  · subst hid
    rw [IdInv, if_pos hseed]
    right; right; right; left
    refine ⟨r, hr1, hr2, ?_, ⟨c1, s.carQueue.length, ?_⟩, ?_⟩
    · rw [hq2, pendQ_push,
        if_pos (show (⟨e.carId, e.timestamp + r, e.personCount,
          EKind.testing⟩ : Event).carId = e.carId from rfl), hzero, add_zero,
        hpush]
    · rw [htr2, htr, recsF_append, hrecs, hrec,
        if_pos (show (preRec g e.carId s.carQueue.length).carId = e.carId
          from rfl)]
      rfl
    · rw [hcar2, hcar]
      exact hcnt
  · refine IdInv_untouched g id s s1 s2 e hInv hq hid ?_ ?_ ?_
    · rw [hq2, pendQ_push,
        if_neg (show ¬ (⟨e.carId, e.timestamp + r, e.personCount,
          EKind.testing⟩ : Event).carId = id from fun hc => hid hc.symm),
        zero_add]
    · rw [htr2, htr, recsF_append,
        if_neg (show ¬ (recOf e s1).carId = id from fun hc => hid hc.symm),
        List.append_nil]
    · rw [hcar2, hcar]

theorem RunInv_step_testing (g : Nat → Nat) (s s1 s2 : SimState) (e : Event)
    (hInv : RunInv g s)
    (hq : (↑s.eventQueue : Multiset Event) = e ::ₘ ↑s1.eventQueue)
    (hcar : s1.carQueue = s.carQueue) (htr : s1.trace = s.trace)
    (hek : e.kind = EKind.testing) (hpe : processEvent e s1 = some s2) :
    RunInv g s2 := by
  obtain ⟨hseed, hphase, hmem, hsplit⟩ := popped_classify g s s1 e hInv hq
  obtain ⟨r, hr1, hr2, heq, hpend, hex, hcnt⟩ :=
    phase_pend_testing g e.carId _ _ _ hphase e hmem hek
  obtain ⟨c1, c2, hrecs⟩ := hex
  obtain ⟨hzero, _⟩ :
      pendQ (↑s1.eventQueue) e.carId = 0 ∧ testEv g e.carId r = e :=
    singleton_eq_cons_add _ e _ (by rw [← hpend, hsplit])
  obtain ⟨htr2, _, hcar2, hq2⟩ := processEvent_testing_char e s1 s2 hek hpe
  have hrec : recOf e s1 = testRec g e.carId r s.carQueue.length := by
    rw [recOf, testRec, hcar, heq]
    rfl
  have hpush : (⟨e.carId, e.timestamp + 240 * e.personCount, e.personCount,
      EKind.departure⟩ : Event) = depEv g e.carId r := by
    rw [heq]
    rfl
  intro id
  by_cases hid : id = e.carId
  · subst hid
    rw [IdInv, if_pos hseed]
    right; right; right; right; left
    refine ⟨r, hr1, hr2, ?_, ⟨c1, c2, s.carQueue.length, ?_⟩, ?_⟩
    · rw [hq2, pendQ_push,
        if_pos (show (⟨e.carId, e.timestamp + 240 * e.personCount,
          e.personCount, EKind.departure⟩ : Event).carId = e.carId from rfl),
        hzero, add_zero, hpush]
    · rw [htr2, htr, recsF_append, hrecs, hrec,
        if_pos (show (testRec g e.carId r s.carQueue.length).carId = e.carId
          from rfl)]
      rfl
    · rw [hcar2, hcar]
      exact hcnt
  · refine IdInv_untouched g id s s1 s2 e hInv hq hid ?_ ?_ ?_
    · rw [hq2, pendQ_push,
        if_neg (show ¬ (⟨e.carId, e.timestamp + 240 * e.personCount,
          e.personCount, EKind.departure⟩ : Event).carId = id
          from fun hc => hid hc.symm),
        zero_add]
    · rw [htr2, htr, recsF_append,
        if_neg (show ¬ (recOf e s1).carId = id from fun hc => hid hc.symm),
        List.append_nil]
    · rw [hcar2, hcar]

theorem RunInv_step_departure (g : Nat → Nat) (s s1 s2 : SimState) (e : Event)
    (hInv : RunInv g s)
    (hq : (↑s.eventQueue : Multiset Event) = e ::ₘ ↑s1.eventQueue)
    (hcar : s1.carQueue = s.carQueue) (htr : s1.trace = s.trace)
    (hek : e.kind = EKind.departure) (hpe : processEvent e s1 = some s2) :
    RunInv g s2 := by
  obtain ⟨hseed, hphase, hmem, hsplit⟩ := popped_classify g s s1 e hInv hq
  obtain ⟨r, hr1, hr2, heq, hpend, hex, hcnt⟩ :=
    phase_pend_departure g e.carId _ _ _ hphase e hmem hek
  obtain ⟨c1, c2, c3, hrecs⟩ := hex
  obtain ⟨hzero, _⟩ :
      pendQ (↑s1.eventQueue) e.carId = 0 ∧ depEv g e.carId r = e :=
    singleton_eq_cons_add _ e _ (by rw [← hpend, hsplit])
  obtain ⟨_, htr2, _, hcar2, hq2⟩ := processEvent_departure_char e s1 s2 hek hpe
  have hrec : (⟨e.timestamp, e.carId, e.personCount, e.kind,
      (s1.carQueue.erase e.carId).length⟩ : LogRec) =
      depRec g e.carId r ((s.carQueue.erase e.carId).length) := by
    rw [hcar, heq]
    rfl
  intro id
  by_cases hid : id = e.carId
  · subst hid
    rw [IdInv, if_pos hseed]
    right; right; right; right; right
    refine ⟨r, hr1, hr2, ?_,
      ⟨c1, c2, c3, (s.carQueue.erase e.carId).length, ?_⟩, ?_⟩
    · rw [hq2]
      exact hzero
    · rw [htr2, htr, recsF_append, hrecs, hrec,
        if_pos (show (depRec g e.carId r
          ((s.carQueue.erase e.carId).length)).carId = e.carId from rfl)]
      rfl
    · rw [hcar2, hcar, List.count_erase]
      simp [hcnt]
  · refine IdInv_untouched g id s s1 s2 e hInv hq hid ?_ ?_ ?_
    · rw [hq2]
    · rw [htr2, htr, recsF_append,
        if_neg (show ¬ (⟨e.timestamp, e.carId, e.personCount, e.kind,
          (s1.carQueue.erase e.carId).length⟩ : LogRec).carId = id
          from fun hc => hid hc.symm),
        List.append_nil]
    · rw [hcar2, hcar, List.count_erase]
      have : (e.carId == id) = false := by
        simp only [beq_eq_false_iff_ne]
        exact fun hc => hid hc.symm
      rw [this]
      simp

theorem RunInv_step (g : Nat → Nat) (s s2 : SimState) (hInv : RunInv g s)
    (hstep : SStep s s2) : RunInv g s2 := by
  obtain ⟨e, s1, hne, hpe⟩ := hstep
  obtain ⟨hq, hcar, htr, _, _⟩ := next_event_char s e s1 hne
  cases hek : e.kind with
  | arrival => exact RunInv_step_arrival g s s1 s2 e hInv hq hcar htr hek hpe
  | prereg => exact RunInv_step_prereg g s s1 s2 e hInv hq hcar htr hek hpe
  | testing => exact RunInv_step_testing g s s1 s2 e hInv hq hcar htr hek hpe
  | departure =>
    exact RunInv_step_departure g s s1 s2 e hInv hq hcar htr hek hpe

theorem RunInv_no_crash (g : Nat → Nat) (s s1 : SimState) (e : Event)
    (hInv : RunInv g s) (hne : next_event s = some (e, s1)) :
    ∃ s2, processEvent e s1 = some s2 := by
  obtain ⟨hq, hcar, _, _, _⟩ := next_event_char s e s1 hne
  cases hres : processEvent e s1 with
  | some s2 => exact ⟨s2, rfl⟩
  | none =>
    exfalso
    cases hek : e.kind with
    | arrival =>
      rw [processEvent, hek] at hres
      unfold enqueue_car at hres
      simp only [log_self, writeLog, car_count] at hres
      by_cases hfull : MAX_CARS ≤ s1.carQueue.length
      · rw [if_pos hfull] at hres
        simp at hres
      · rw [if_neg hfull] at hres
        simp at hres
    | prereg =>
      rw [processEvent, hek] at hres
      simp at hres
    | testing =>
      rw [processEvent, hek] at hres
      simp at hres
    | departure =>
      obtain ⟨hseed, hphase, hmem, _⟩ := popped_classify g s s1 e hInv hq
      obtain ⟨r, _, _, _, _, _, hcnt⟩ :=
        phase_pend_departure g e.carId _ _ _ hphase e hmem hek
      have hmemq : e.carId ∈ s1.carQueue := by
        rw [hcar]
        exact List.count_pos_iff.mp (by omega)
      rw [processEvent, hek, dequeue_car, if_pos hmemq] at hres
      simp at hres

theorem runFuel_inv (g : Nat → Nat) (n : Nat) (s sf : SimState)
    (hInv : RunInv g s) (h : runFuel n s = some sf) :
    RunInv g sf ∧ sf.eventQueue = [] := by
  induction n generalizing s with
  | zero =>
    rw [runFuel] at h
    by_cases hemp : s.eventQueue.isEmpty = true
    · rw [if_pos hemp] at h
      simp only [Option.some.injEq] at h
      subst h
      exact ⟨hInv, List.isEmpty_iff.mp hemp⟩
    · rw [if_neg hemp] at h
      simp at h
  | succ n ih =>
    rw [runFuel] at h
    cases hne : next_event s with
    | none =>
      rw [hne] at h
      simp only [Option.some.injEq] at h
      subst h
      exact ⟨hInv, (next_event_none_iff s).mp hne⟩
    | some p =>
      obtain ⟨e, s1⟩ := p
      rw [hne] at h
      dsimp only at h
      cases hpe : processEvent e s1 with
      | none =>
        rw [hpe] at h
        simp at h
      | some s2 =>
        rw [hpe] at h
        exact ih s2 (RunInv_step g s s2 hInv ⟨e, s1, hne, hpe⟩) h

theorem Reach_inv (g : Nat → Nat) (s : SimState)
    (h : Reach (initState g) s) : RunInv g s := by
  induction h with
  | refl => exact RunInv_init g
  | tail hr hs ih => exact RunInv_step g _ _ ih hs

/-! ## Termination of the run loop -/

/-- How many more dispatches an event of this kind can cause, itself
included: the chain ARRIVAL, PREREGISTRATION, TESTING, DEPARTURE shortens by
one at every dispatch. -/
def rank : EKind → Nat
  | EKind.arrival => 4
  | EKind.prereg => 3
  | EKind.testing => 2
  | EKind.departure => 1

/-- The total remaining work of an event queue. -/
def rankSum (q : Multiset Event) : Nat :=
  (q.map (fun e => rank e.kind)).sum

theorem rankSum_cons (x : Event) (m : Multiset Event) :
    rankSum (x ::ₘ m) = rank x.kind + rankSum m := by
  rw [rankSum, Multiset.map_cons, Multiset.sum_cons, rankSum]

theorem step_rank_lt (s s2 : SimState) (h : SStep s s2) :
    rankSum (↑s2.eventQueue) < rankSum (↑s.eventQueue) := by
  obtain ⟨e, s1, hne, hpe⟩ := h
  obtain ⟨hq, _, _, _, _⟩ := next_event_char s e s1 hne
  rw [hq, rankSum_cons]
  cases hek : e.kind with
  | arrival =>
    obtain ⟨_, _, hbranch⟩ := processEvent_arrival_char e s1 s2 hek hpe
    rcases hbranch with ⟨_, hq2, _⟩ | ⟨_, hq2, _⟩
    · rw [hq2]
      simp only [rank]
      omega
    · rw [hq2, heappush_multiset, rankSum_cons]
      simp only [rank]
      omega
  | prereg =>
    obtain ⟨r, _, _, _, _, _, hq2⟩ := processEvent_prereg_char e s1 s2 hek hpe
    rw [hq2, heappush_multiset, rankSum_cons]
    simp only [rank]
    omega
  | testing =>
    obtain ⟨_, _, _, hq2⟩ := processEvent_testing_char e s1 s2 hek hpe
    rw [hq2, heappush_multiset, rankSum_cons]
    simp only [rank]
    omega
  | departure =>
    obtain ⟨_, _, _, _, hq2⟩ := processEvent_departure_char e s1 s2 hek hpe
    rw [hq2]
    simp only [rank]
    omega

theorem rankE_pos (k : EKind) : 0 < rank k := by
  cases k <;> simp [rank]

theorem rankSum_zero_iff (q : List Event) :
    rankSum (↑q) = 0 ↔ q = [] := by
  constructor
  · intro h
    cases q with
    | nil => rfl
    | cons a t =>
      rw [show ((↑(a :: t) : Multiset Event)) = a ::ₘ ↑t from rfl,
        rankSum_cons] at h
      have := rankE_pos a.kind
      omega
  · intro h
    subst h
    rfl

theorem runFuel_terminates (g : Nat → Nat) (n : Nat) (s : SimState)
    (hInv : RunInv g s) (hn : rankSum (↑s.eventQueue) ≤ n) :
    ∃ sf, runFuel n s = some sf := by
  induction n generalizing s with
  | zero =>
    have hq : s.eventQueue = [] :=
      (rankSum_zero_iff s.eventQueue).mp (by omega)
    refine ⟨s, ?_⟩
    rw [runFuel, if_pos (by rw [hq]; rfl)]
  | succ n ih =>
    cases hne : next_event s with
    | none =>
      refine ⟨s, ?_⟩
      rw [runFuel, hne]
    | some p =>
      obtain ⟨e, s1⟩ := p
      obtain ⟨s2, hpe⟩ := RunInv_no_crash g s s1 e hInv hne
      have hstep : SStep s s2 := ⟨e, s1, hne, hpe⟩
      have hlt := step_rank_lt s s2 hstep
      obtain ⟨sf, hsf⟩ := ih s2 (RunInv_step g s s2 hInv hstep) (by omega)
      refine ⟨sf, ?_⟩
      rw [runFuel, hne]
      dsimp only
      rw [hpe]
      exact hsf

/-! ## Occupancy bound and distinctness of the car queue -/

/-- Occupancy invariant: the car queue never exceeds MAX_CARS, and no emitted
record ever reported more than MAX_CARS cars in the system. -/
def OccInv (s : SimState) : Prop :=
  s.carQueue.length ≤ MAX_CARS ∧ ∀ r ∈ s.trace, r.carsInSys ≤ MAX_CARS

theorem OccInv_step (s s2 : SimState) (h : SStep s s2) (hO : OccInv s) :
    OccInv s2 := by
  obtain ⟨hlen, htrb⟩ := hO
  obtain ⟨e, s1, hne, hpe⟩ := h
  obtain ⟨hq, hcar, htr, _, _⟩ := next_event_char s e s1 hne
  have hrecb : (recOf e s1).carsInSys ≤ MAX_CARS := by
    rw [recOf]
    simpa [hcar] using hlen
  cases hek : e.kind with
  | arrival =>
    obtain ⟨htr2, _, hbranch⟩ := processEvent_arrival_char e s1 s2 hek hpe
    rcases hbranch with ⟨_, _, hcar2⟩ | ⟨hroom, _, hcar2⟩
    · refine ⟨by rw [hcar2, hcar]; exact hlen, ?_⟩
      intro r hr
      rw [htr2, htr] at hr
      rcases List.mem_append.mp hr with h1 | h1
      · exact htrb r h1
      · rw [List.mem_singleton.mp h1]
        exact hrecb
    · refine ⟨?_, ?_⟩
      · rw [hcar2, hcar]
        simp only [List.length_append, List.length_singleton]
        rw [hcar] at hroom
        omega
      · intro r hr
        rw [htr2, htr] at hr
        rcases List.mem_append.mp hr with h1 | h1
        · exact htrb r h1
        · rw [List.mem_singleton.mp h1]
          exact hrecb
  | prereg =>
    obtain ⟨r0, _, _, htr2, _, hcar2, _⟩ := processEvent_prereg_char e s1 s2 hek hpe
    refine ⟨by rw [hcar2, hcar]; exact hlen, ?_⟩
    intro r hr
    rw [htr2, htr] at hr
    rcases List.mem_append.mp hr with h1 | h1
    · exact htrb r h1
    · rw [List.mem_singleton.mp h1]
      exact hrecb
  | testing =>
    obtain ⟨htr2, _, hcar2, _⟩ := processEvent_testing_char e s1 s2 hek hpe
    refine ⟨by rw [hcar2, hcar]; exact hlen, ?_⟩
    intro r hr
    rw [htr2, htr] at hr
    rcases List.mem_append.mp hr with h1 | h1
    · exact htrb r h1
    · rw [List.mem_singleton.mp h1]
      exact hrecb
  | departure =>
    obtain ⟨_, htr2, _, hcar2, _⟩ := processEvent_departure_char e s1 s2 hek hpe
    have herlen : (s1.carQueue.erase e.carId).length ≤ s.carQueue.length := by
      rw [hcar]
      exact (List.erase_sublist _ _).length_le
    refine ⟨by rw [hcar2]; omega, ?_⟩
    intro r hr
    rw [htr2, htr] at hr
    rcases List.mem_append.mp hr with h1 | h1
    · exact htrb r h1
    · rw [List.mem_singleton.mp h1]
      simp only
      omega

theorem OccInv_reach (g : Nat → Nat) (s : SimState)
    (h : Reach (initState g) s) : OccInv s := by
  induction h with
  | refl =>
    obtain ⟨_, hcar, htr, _⟩ := initState_char g
    refine ⟨by rw [hcar]; simp [MAX_CARS], ?_⟩
    intro r hr
    rw [htr] at hr
    exact absurd hr (List.not_mem_nil r)
  | tail hr hs ih => exact OccInv_step _ _ hs ih

theorem RunInv_count_le_one (g : Nat → Nat) (s : SimState)
    (h : RunInv g s) (a : Nat) : s.carQueue.count a ≤ 1 := by
  have hI := h a
  rw [IdInv] at hI
  by_cases hseed : arrTime g a ≤ MAX_ARRIVAL_TIME
  · rw [if_pos hseed] at hI
    rcases hI with ⟨_, _, hc⟩ | ⟨_, _, hc⟩ | ⟨_, _, hc⟩ |
      ⟨r, _, _, _, _, hc⟩ | ⟨r, _, _, _, _, hc⟩ | ⟨r, _, _, _, _, hc⟩ <;>
      omega
  · rw [if_neg hseed] at hI
    omega

theorem carQueue_nodup_reach (g : Nat → Nat) (s : SimState)
    (h : Reach (initState g) s) : s.carQueue.Nodup := by
  have hInv := Reach_inv g s h
  rw [List.nodup_iff_count_le_one]
  intro a
  exact RunInv_count_le_one g s hInv a

/-! ## Existence of an admitted car in every completed run -/

theorem heappush_nil (x : Event) : heappush [] x = [x] := by
  rw [heappush, siftdown, siftdownLoop]
  simp

theorem arrTime_lb (g : Nat → Nat) (i : Nat) :
    30 + 30 * i ≤ arrTime g i := by
  induction i with
  | zero =>
    have := randintV_le g 0 30 120 (by omega)
    simp only [arrTime]
    omega
  | succ i ih =>
    have := arrTime_step g i
    omega

theorem initQueue_ne_nil (g : Nat → Nat) :
    (initState g).eventQueue ≠ [] := by
  intro hnil
  have hq := (initState_char g).1
  rw [hnil, seedEvents_zero_head] at hq
  have := congrArg Multiset.card hq
  simp at this

/-- Once a car has been admitted, a durable witness exists: either its
preregistration record is already in the trace, or a non-arrival event of its
chain is still pending. -/
def AdmittedMark (s : SimState) : Prop :=
  (∃ rp ∈ s.trace, rp.etype = EKind.prereg) ∨
  (∃ x ∈ s.eventQueue, x.kind ≠ EKind.arrival)

theorem step_trace_append (s s2 : SimState) (h : SStep s s2) :
    ∃ rec, s2.trace = s.trace ++ [rec] := by
  obtain ⟨e, s1, hne, hpe⟩ := h
  obtain ⟨_, _, htr, _, _⟩ := next_event_char s e s1 hne
  cases hek : e.kind with
  | arrival =>
    obtain ⟨htr2, _, _⟩ := processEvent_arrival_char e s1 s2 hek hpe
    exact ⟨_, by rw [htr2, htr]⟩
  | prereg =>
    obtain ⟨r, _, _, htr2, _, _, _⟩ := processEvent_prereg_char e s1 s2 hek hpe
    exact ⟨_, by rw [htr2, htr]⟩
  | testing =>
    obtain ⟨htr2, _, _, _⟩ := processEvent_testing_char e s1 s2 hek hpe
    exact ⟨_, by rw [htr2, htr]⟩
  | departure =>
    obtain ⟨_, htr2, _, _, _⟩ := processEvent_departure_char e s1 s2 hek hpe
    exact ⟨_, by rw [htr2, htr]⟩

theorem mark_persists (g : Nat → Nat) (s s2 : SimState) (hInv : RunInv g s)
    (hstep : SStep s s2) (hM : AdmittedMark s) : AdmittedMark s2 := by
  obtain ⟨rec, htr2⟩ := step_trace_append s s2 hstep
  rcases hM with ⟨rp, hrp, hrpk⟩ | ⟨x, hx, hxk⟩
  · left
    exact ⟨rp, by rw [htr2]; exact List.mem_append_left _ hrp, hrpk⟩
  · obtain ⟨e, s1, hne, hpe⟩ := hstep
    obtain ⟨hq, hcar, htr, _, _⟩ := next_event_char s e s1 hne
    by_cases hxe : x = e
    · subst hxe
      cases hek : x.kind with
      | arrival => exact absurd hek hxk
      | prereg =>
        obtain ⟨r, _, _, _, _, _, hq2⟩ :=
          processEvent_prereg_char x s1 s2 hek hpe
        right
        refine ⟨⟨x.carId, x.timestamp + r, x.personCount, EKind.testing⟩,
          ?_, by simp⟩
        have : (⟨x.carId, x.timestamp + r, x.personCount,
            EKind.testing⟩ : Event) ∈ (↑s2.eventQueue : Multiset Event) := by
          rw [hq2, heappush_multiset]
          exact Multiset.mem_cons_self _ _
        simpa using this
      | testing =>
        obtain ⟨_, _, _, hq2⟩ := processEvent_testing_char x s1 s2 hek hpe
        right
        refine ⟨⟨x.carId, x.timestamp + 240 * x.personCount, x.personCount,
          EKind.departure⟩, ?_, by simp⟩
        have : (⟨x.carId, x.timestamp + 240 * x.personCount, x.personCount,
            EKind.departure⟩ : Event) ∈ (↑s2.eventQueue : Multiset Event) := by
          rw [hq2, heappush_multiset]
          exact Multiset.mem_cons_self _ _
        simpa using this
      | departure =>
        obtain ⟨hseed, hphase, hmem, _⟩ := popped_classify g s s1 x hInv hq
        obtain ⟨r, _, _, _, _, ⟨c1, c2, c3, hrecs⟩, _⟩ :=
          phase_pend_departure g x.carId _ _ _ hphase x hmem hek
        left
        have hpmem : preRec g x.carId c2 ∈ recsF s.trace x.carId := by
          rw [hrecs]
          simp
        have hpmem2 : preRec g x.carId c2 ∈ s.trace :=
          List.mem_of_mem_filter hpmem
        refine ⟨preRec g x.carId c2, ?_, rfl⟩
        rw [htr2]
        exact List.mem_append_left _ hpmem2
    · right
      have hxq : x ∈ (↑s1.eventQueue : Multiset Event) := by
        have hx2 : x ∈ (↑s.eventQueue : Multiset Event) := by simpa using hx
        rw [hq] at hx2
        rcases Multiset.mem_cons.mp hx2 with h1 | h1
        · exact absurd h1 hxe
        · exact h1
      refine ⟨x, ?_, hxk⟩
      cases hek : e.kind with
      | arrival =>
        obtain ⟨_, _, hbranch⟩ := processEvent_arrival_char e s1 s2 hek hpe
        rcases hbranch with ⟨_, hq2, _⟩ | ⟨_, hq2, _⟩
        · rw [hq2]
          simpa using hxq
        · have : x ∈ (↑s2.eventQueue : Multiset Event) := by
            rw [hq2, heappush_multiset]
            exact Multiset.mem_cons_of_mem hxq
          simpa using this
      | prereg =>
        obtain ⟨r, _, _, _, _, _, hq2⟩ :=
          processEvent_prereg_char e s1 s2 hek hpe
        have : x ∈ (↑s2.eventQueue : Multiset Event) := by
          rw [hq2, heappush_multiset]
          exact Multiset.mem_cons_of_mem hxq
        simpa using this
      | testing =>
        obtain ⟨_, _, _, hq2⟩ := processEvent_testing_char e s1 s2 hek hpe
        have : x ∈ (↑s2.eventQueue : Multiset Event) := by
          rw [hq2, heappush_multiset]
          exact Multiset.mem_cons_of_mem hxq
        simpa using this
      | departure =>
        obtain ⟨_, _, _, _, hq2⟩ := processEvent_departure_char e s1 s2 hek hpe
        rw [hq2]
        simpa using hxq

theorem runFuel_mark (g : Nat → Nat) (n : Nat) (s sf : SimState)
    (hInv : RunInv g s) (hM : AdmittedMark s)
    (h : runFuel n s = some sf) : AdmittedMark sf := by
  induction n generalizing s with
  | zero =>
    rw [runFuel] at h
    by_cases hemp : s.eventQueue.isEmpty = true
    · rw [if_pos hemp] at h
      simp only [Option.some.injEq] at h
      subst h
      exact hM
    · rw [if_neg hemp] at h
      simp at h
  | succ n ih =>
    rw [runFuel] at h
    cases hne : next_event s with
    | none =>
      rw [hne] at h
      simp only [Option.some.injEq] at h
      subst h
      exact hM
    | some p =>
      obtain ⟨e, s1⟩ := p
      rw [hne] at h
      dsimp only at h
      cases hpe : processEvent e s1 with
      | none =>
        rw [hpe] at h
        simp at h
      | some s2 =>
        rw [hpe] at h
        have hstep : SStep s s2 := ⟨e, s1, hne, hpe⟩
        exact ih s2 (RunInv_step g s s2 hInv hstep)
          (mark_persists g s s2 hInv hstep hM) h

theorem exists_prereg_record (g : Nat → Nat) (n : Nat) (sf : SimState)
    (hrun : runFuel n (initState g) = some sf) :
    ∃ rp ∈ sf.trace, rp.etype = EKind.prereg := by
  cases n with
  | zero =>
    rw [runFuel] at hrun
    rw [if_neg (by
      intro hemp
      exact initQueue_ne_nil g (List.isEmpty_iff.mp hemp))] at hrun
    simp at hrun
  | succ n =>
    rw [runFuel] at hrun
    cases hne : next_event (initState g) with
    | none =>
      exact absurd ((next_event_none_iff _).mp hne) (initQueue_ne_nil g)
    | some p =>
      obtain ⟨e, s1⟩ := p
      rw [hne] at hrun
      dsimp only at hrun
      cases hpe : processEvent e s1 with
      | none =>
        rw [hpe] at hrun
        simp at hrun
      | some s2 =>
        rw [hpe] at hrun
        obtain ⟨hq, hcar, htr, _, _⟩ := next_event_char _ e s1 hne
        have hek : e.kind = EKind.arrival := by
          have he : e ∈ (initState g).eventQueue := by
            have : e ∈ (↑(initState g).eventQueue : Multiset Event) := by
              rw [hq]
              exact Multiset.mem_cons_self e _
            simpa using this
          have := seedEvents_mem g 0 e ((initQueue_mem_iff g e).mp he)
          rw [this.2.2]
          rfl
        obtain ⟨_, _, hbranch⟩ := processEvent_arrival_char e s1 s2 hek hpe
        rcases hbranch with ⟨hfull, _, _⟩ | ⟨_, hq2, _⟩
        · rw [hcar, (initState_char g).2.1] at hfull
          simp [MAX_CARS] at hfull
        · have hM : AdmittedMark s2 := by
            right
            refine ⟨⟨e.carId, e.timestamp, e.personCount, EKind.prereg⟩,
              ?_, by simp⟩
            have : (⟨e.carId, e.timestamp, e.personCount,
                EKind.prereg⟩ : Event) ∈ (↑s2.eventQueue : Multiset Event) := by
              rw [hq2, heappush_multiset]
              exact Multiset.mem_cons_self _ _
            simpa using this
          have hInv2 : RunInv g s2 :=
            RunInv_step g _ s2 (RunInv_init g) ⟨e, s1, hne, hpe⟩
          have hMf := runFuel_mark g n s2 sf hInv2 hM hrun
          rcases hMf with h1 | ⟨x, hx, _⟩
          · exact h1
          · have hq0 : sf.eventQueue = [] :=
              (runFuel_inv g n s2 sf hInv2 hrun).2
            rw [hq0] at hx
            exact absurd hx (List.not_mem_nil x)

theorem pendQ_nil (id : Nat) : pendQ (↑([] : List Event)) id = 0 := rfl

theorem final_phase (g : Nat → Nat) (n : Nat) (sf : SimState)
    (hrun : runFuel n (initState g) = some sf) (id : Nat) :
    recsF sf.trace id = [] ∨
    (∃ c1, recsF sf.trace id = [arrRec g id c1]) ∨
    (∃ r c1 c2 c3 c4, 60 ≤ r ∧ r ≤ 120 ∧
      recsF sf.trace id = [arrRec g id c1, preRec g id c2, testRec g id r c3,
        depRec g id r c4]) := by
  obtain ⟨hInv, hq0⟩ := runFuel_inv g n _ sf (RunInv_init g) hrun
  have hI := hInv id
  rw [IdInv] at hI
  by_cases hseed : arrTime g id ≤ MAX_ARRIVAL_TIME
  · rw [if_pos hseed] at hI
    have hp0 : pendQ (↑sf.eventQueue) id = 0 := by
      rw [hq0]
      rfl
    rcases hI with ⟨h1, h2, _⟩ | ⟨_, h2, _⟩ | ⟨h1, _, _⟩ |
      ⟨r, _, _, h1, _, _⟩ | ⟨r, _, _, h1, _, _⟩ | ⟨r, hr1, hr2, _, h2, _⟩
    · rw [hp0] at h1
      exact absurd h1.symm (Multiset.singleton_ne_zero _)
    · right; left
      exact h2
    · rw [hp0] at h1
      exact absurd h1.symm (Multiset.singleton_ne_zero _)
    · rw [hp0] at h1
      exact absurd h1.symm (Multiset.singleton_ne_zero _)
    · rw [hp0] at h1
      exact absurd h1.symm (Multiset.singleton_ne_zero _)
    · right; right
      obtain ⟨c1, c2, c3, c4, h2⟩ := h2
      exact ⟨r, c1, c2, c3, c4, hr1, hr2, h2⟩
  · rw [if_neg hseed] at hI
    left
    exact hI.2.1

/-! ## heapq maintains the heap ordering invariant -/

theorem eventLT_true_iff (a b : Event) :
    eventLT a b = true ↔ a.timestamp < b.timestamp := by
  simp [eventLT]

theorem getD_set_self (l : List Event) (i : Nat) (a : Event)
    (h : i < l.length) : (l.set i a).getD i default = a := by
  rw [List.getD_eq_getElem?_getD, List.getElem?_set_eq_of_lt a h]
  rfl

theorem siftdownLoop_heapInv (pos : Nat) :
    ∀ (heap : List Event) (newitem : Event),
    pos < heap.length →
    (∀ j, j < heap.length → 0 < j → j ≠ pos → (j - 1) / 2 ≠ pos →
      (heap.getD ((j - 1) / 2) default).timestamp ≤
        (heap.getD j default).timestamp) →
    (0 < pos → ∀ j, j < heap.length → (j - 1) / 2 = pos → pos < j →
      (heap.getD ((pos - 1) / 2) default).timestamp ≤
        (heap.getD j default).timestamp) →
    (∀ j, j < heap.length → (j - 1) / 2 = pos → pos < j →
      newitem.timestamp ≤ (heap.getD j default).timestamp) →
    heapInv (siftdownLoop heap 0 pos newitem) := by
  induction pos using Nat.strong_induction_on with
  | _ pos ih =>
    intro heap newitem hp hA1 hA2 hA3
    rw [siftdownLoop]
    by_cases hsp : 0 < pos
    · rw [dif_pos hsp]
      by_cases hlt : eventLT newitem (heap.getD ((pos - 1) / 2) default) = true
      · rw [if_pos hlt]
        rw [eventLT_true_iff] at hlt
        have hpplt : (pos - 1) / 2 < pos := by omega
        apply ih ((pos - 1) / 2) hpplt (heap.set pos
          (heap.getD ((pos - 1) / 2) default)) newitem
        · simpa using Nat.lt_trans hpplt hp
        · intro j hj h0j hjne hpar
          rw [List.length_set] at hj
          by_cases hjp : j = pos
          · rw [hjp] at hpar
            exact absurd rfl hpar
          · by_cases hparp : (j - 1) / 2 = pos
            · rw [hparp, getD_set_self heap pos _ hp,
                getD_set_ne heap pos j _ (fun hc => hjp hc.symm)]
              exact hA2 hsp j hj hparp (by omega)
            · rw [getD_set_ne heap pos _ _ (fun hc => hparp hc.symm),
                getD_set_ne heap pos j _ (fun hc => hjp hc.symm)]
              exact hA1 j hj h0j hjp hparp
        · intro h0pp j hj hparj hppj
          rw [List.length_set] at hj
          have hgp_ne : ((pos - 1) / 2 - 1) / 2 ≠ pos := by omega
          rw [getD_set_ne heap pos _ _ (fun hc => hgp_ne hc.symm)]
          have hpp_lt : (pos - 1) / 2 < heap.length := Nat.lt_trans hpplt hp
          have hstep1 : (heap.getD (((pos - 1) / 2 - 1) / 2) default).timestamp ≤
              (heap.getD ((pos - 1) / 2) default).timestamp :=
            hA1 ((pos - 1) / 2) hpp_lt h0pp (by omega) (by omega)
          by_cases hjp : j = pos
          · rw [hjp, getD_set_self heap pos _ hp]
            exact hstep1
          · rw [getD_set_ne heap pos j _ (fun hc => hjp hc.symm)]
            have hstep2 : (heap.getD ((pos - 1) / 2) default).timestamp ≤
                (heap.getD j default).timestamp := by
              have hne2 : (j - 1) / 2 ≠ pos := by omega
              have hh := hA1 j hj (by omega) hjp hne2
              rw [hparj] at hh
              exact hh
            exact Nat.le_trans hstep1 hstep2
        · intro j hj hparj hppj
          rw [List.length_set] at hj
          by_cases hjp : j = pos
          · rw [hjp, getD_set_self heap pos _ hp]
            exact Nat.le_of_lt hlt
          · rw [getD_set_ne heap pos j _ (fun hc => hjp hc.symm)]
            have hstep2 : (heap.getD ((pos - 1) / 2) default).timestamp ≤
                (heap.getD j default).timestamp := by
              have hne2 : (j - 1) / 2 ≠ pos := by omega
              have hh := hA1 j hj (by omega) hjp hne2
              rw [hparj] at hh
              exact hh
            exact Nat.le_trans (Nat.le_of_lt hlt) hstep2
      · rw [if_neg hlt]
        have hge : (heap.getD ((pos - 1) / 2) default).timestamp ≤
            newitem.timestamp := by
          rw [eventLT_true_iff] at hlt
          omega
        intro j hj h0j
        rw [List.length_set] at hj
        by_cases hjp : j = pos
        · have hppne2 : (pos - 1) / 2 ≠ pos := by omega
          rw [hjp, getD_set_self heap pos _ hp,
            getD_set_ne heap pos _ _ (fun hc => hppne2 hc.symm)]
          exact hge
        · by_cases hparp : (j - 1) / 2 = pos
          · rw [hparp, getD_set_self heap pos _ hp,
              getD_set_ne heap pos j _ (fun hc => hjp hc.symm)]
            exact hA3 j hj hparp (by omega)
          · rw [getD_set_ne heap pos _ _ (fun hc => hparp hc.symm),
              getD_set_ne heap pos j _ (fun hc => hjp hc.symm)]
            exact hA1 j hj h0j hjp hparp
    · rw [dif_neg hsp]
      have hpos0 : pos = 0 := by omega
      subst hpos0
      intro j hj h0j
      rw [List.length_set] at hj
      by_cases hparp : (j - 1) / 2 = 0
      · rw [hparp, getD_set_self heap 0 _ hp,
          getD_set_ne heap 0 j _ (by omega)]
        exact hA3 j hj hparp (by omega)
      · rw [getD_set_ne heap 0 _ _ (fun hc => hparp hc.symm),
          getD_set_ne heap 0 j _ (by omega)]
        exact hA1 j hj h0j (by omega) hparp

theorem siftupLoop_heapInv (fuel : Nat) :
    ∀ (heap : List Event) (pos : Nat) (newitem : Event),
    pos < heap.length → heap.length - pos ≤ fuel →
    (∀ j, j < heap.length → 0 < j → j ≠ pos → (j - 1) / 2 ≠ pos →
      (heap.getD ((j - 1) / 2) default).timestamp ≤
        (heap.getD j default).timestamp) →
    (0 < pos → ∀ j, j < heap.length → (j - 1) / 2 = pos → pos < j →
      (heap.getD ((pos - 1) / 2) default).timestamp ≤
        (heap.getD j default).timestamp) →
    heapInv (siftupLoop heap 0 pos newitem) := by
  induction fuel with
  | zero =>
    intro heap pos newitem hp hf hA1 hA2
    omega
  | succ fuel ih =>
    intro heap pos newitem hp hf hA1 hA2
    rw [siftupLoop]
    by_cases hc : 2 * pos + 1 < heap.length
    · rw [dif_pos hc]
      set cp := if (2 * pos + 1 + 1 < heap.length &&
          !(eventLT (heap.getD (2 * pos + 1) default)
            (heap.getD (2 * pos + 1 + 1) default))) = true
        then 2 * pos + 1 + 1 else 2 * pos + 1 with hcp
      have hcp1 : 2 * pos + 1 ≤ cp := by
        rw [hcp]
        split
        · omega
        · omega
      have hcpub : cp ≤ 2 * pos + 2 := by
        rw [hcp]
        split
        · omega
        · omega
      have hcp2 : cp < heap.length := by
        rw [hcp]
        split
        · next hs =>
          have := (Bool.and_eq_true _ _).mp hs
          exact of_decide_eq_true this.1
        · exact hc
      have hpcp : pos < cp := by omega
      have hparcp : (cp - 1) / 2 = pos := by omega
      have hmin : ∀ j, j < heap.length → (j - 1) / 2 = pos → pos < j →
          (heap.getD cp default).timestamp ≤
            (heap.getD j default).timestamp := by
        intro j hj hpar hpj
        have hjrange : j = 2 * pos + 1 ∨ j = 2 * pos + 2 := by omega
        by_cases hcond : (2 * pos + 1 + 1 < heap.length &&
            !(eventLT (heap.getD (2 * pos + 1) default)
              (heap.getD (2 * pos + 1 + 1) default))) = true
        · have hcpv : cp = 2 * pos + 1 + 1 := by rw [hcp, if_pos hcond]
          obtain ⟨_, hB⟩ := (Bool.and_eq_true _ _).mp hcond
          have hBf : eventLT (heap.getD (2 * pos + 1) default)
              (heap.getD (2 * pos + 1 + 1) default) = false := by
            cases hE : eventLT (heap.getD (2 * pos + 1) default)
                (heap.getD (2 * pos + 1 + 1) default) with
            | false => rfl
            | true =>
              rw [hE] at hB
              simp at hB
          have hBle : (heap.getD (2 * pos + 1 + 1) default).timestamp ≤
              (heap.getD (2 * pos + 1) default).timestamp := by
            have hn : ¬ ((heap.getD (2 * pos + 1) default).timestamp <
                (heap.getD (2 * pos + 1 + 1) default).timestamp) := by
              intro hlt2
              rw [(eventLT_true_iff _ _).mpr hlt2] at hBf
              simp at hBf
            omega
          rcases hjrange with hj1 | hj1
          · rw [hcpv, hj1]
            exact hBle
          · rw [hcpv, hj1]
        · have hcpv : cp = 2 * pos + 1 := by rw [hcp, if_neg hcond]
          rcases hjrange with hj1 | hj1
          · rw [hcpv, hj1]
          · have hr2 : 2 * pos + 1 + 1 < heap.length := by omega
            have hBtrue : eventLT (heap.getD (2 * pos + 1) default)
                (heap.getD (2 * pos + 1 + 1) default) = true := by
              by_contra hB
              have hBf : eventLT (heap.getD (2 * pos + 1) default)
                  (heap.getD (2 * pos + 1 + 1) default) = false := by
                cases hE : eventLT (heap.getD (2 * pos + 1) default)
                    (heap.getD (2 * pos + 1 + 1) default) with
                | false => rfl
                | true => exact absurd hE hB
              apply hcond
              rw [Bool.and_eq_true]
              refine ⟨decide_eq_true hr2, ?_⟩
              rw [hBf]
              rfl
            rw [eventLT_true_iff] at hBtrue
            rw [hcpv, hj1]
            show (heap.getD (2 * pos + 1) default).timestamp ≤
              (heap.getD (2 * pos + 1 + 1) default).timestamp
            omega
      have hlen2 : (heap.set pos (heap.getD cp default)).length =
          heap.length := List.length_set heap pos _
      apply ih (heap.set pos (heap.getD cp default)) cp newitem
        (hlen2 ▸ hcp2) (by rw [hlen2]; omega)
      · intro j hj h0j hjne hpar
        rw [List.length_set] at hj
        by_cases hjp : j = pos
        · have h0pos : 0 < pos := hjp ▸ h0j
          have hppne : (pos - 1) / 2 ≠ pos := by omega
          rw [hjp, getD_set_self heap pos _ hp,
            getD_set_ne heap pos _ _ (fun hc2 => hppne hc2.symm)]
          exact hA2 h0pos cp hcp2 hparcp hpcp
        · by_cases hparp : (j - 1) / 2 = pos
          · rw [hparp, getD_set_self heap pos _ hp,
              getD_set_ne heap pos j _ (fun hc2 => hjp hc2.symm)]
            exact hmin j hj hparp (by omega)
          · rw [getD_set_ne heap pos _ _ (fun hc2 => hparp hc2.symm),
              getD_set_ne heap pos j _ (fun hc2 => hjp hc2.symm)]
            exact hA1 j hj h0j hjp hparp
      · intro h0cp j hj hparj hcpj
        rw [List.length_set] at hj
        have hjne : j ≠ pos := by omega
        rw [hparcp, getD_set_self heap pos _ hp,
          getD_set_ne heap pos j _ (fun hc2 => hjne hc2.symm)]
        have hh := hA1 j hj (by omega) hjne (by omega)
        rw [hparj] at hh
        exact hh
    · rw [dif_neg hc]
      rw [siftdown, getD_set_self heap pos newitem hp]
      apply siftdownLoop_heapInv pos (heap.set pos newitem) newitem
      · simpa using hp
      · intro j hj h0j hjne hpar
        rw [List.length_set] at hj
        rw [getD_set_ne heap pos _ _ (fun hc2 => hpar hc2.symm),
          getD_set_ne heap pos j _ (fun hc2 => hjne hc2.symm)]
        exact hA1 j hj h0j hjne hpar
      · intro h0pos j hj hparj hposj
        rw [List.length_set] at hj
        omega
      · intro j hj hparj hposj
        rw [List.length_set] at hj
        omega

theorem getD_dropLast (l : List Event) (j : Nat) (h : j < l.dropLast.length) :
    l.dropLast.getD j default = l.getD j default := by
  have hl : j < l.length := by
    simp only [List.length_dropLast] at h
    omega
  rw [List.getD_eq_getElem _ default h, List.getD_eq_getElem _ default hl]
  exact List.getElem_dropLast l j h

theorem heapInv_nil : heapInv [] := by
  intro j hj h0j
  simp at hj

theorem heappush_heapInv (l : List Event) (x : Event) (hinv : heapInv l) :
    heapInv (heappush l x) := by
  rw [heappush, siftdown]
  have hget : (l ++ [x]).getD l.length default = x := by
    simp [List.getD_eq_getElem?_getD]
  rw [hget]
  apply siftdownLoop_heapInv l.length (l ++ [x]) x (by simp)
  · intro j hj h0j hjne hpar
    simp only [List.length_append, List.length_singleton] at hj
    have hjl : j < l.length := by omega
    have hpl : (j - 1) / 2 < l.length := by omega
    rw [List.getD_append _ _ _ _ hpl, List.getD_append _ _ _ _ hjl]
    exact hinv j hjl h0j
  · intro h0 j hj hpar hlt
    simp only [List.length_append, List.length_singleton] at hj
    omega
  · intro j hj hpar hlt
    simp only [List.length_append, List.length_singleton] at hj
    omega

theorem heappop_heapInv (l : List Event) (e : Event) (rest : List Event)
    (h : heappop l = some (e, rest)) (hinv : heapInv l) : heapInv rest := by
  cases l with
  | nil => simp [heappop] at h
  | cons a t =>
    simp only [heappop] at h
    by_cases hemp : ((a :: t).dropLast).isEmpty = true
    · rw [if_pos hemp] at h
      simp only [Option.some.injEq, Prod.mk.injEq] at h
      rw [← h.2]
      exact heapInv_nil
    · rw [if_neg hemp] at h
      simp only [Option.some.injEq, Prod.mk.injEq] at h
      rw [← h.2]
      have hm : 0 < ((a :: t).dropLast).length := by
        cases hh : (a :: t).dropLast with
        | nil => rw [hh] at hemp; simp at hemp
        | cons x xs => simp
      rw [siftup, getD_set_self _ 0 _ hm]
      apply siftupLoop_heapInv
        (((a :: t).dropLast.set 0 ((a :: t).getLastD default)).length)
        _ 0 _ (by simpa using hm) (by omega)
      · intro j hj h0j hjne hpar
        rw [List.length_set] at hj
        rw [getD_set_ne _ 0 _ _ (fun hc => hpar hc.symm),
          getD_set_ne _ 0 j _ (fun hc => hjne hc.symm)]
        have hplt : (j - 1) / 2 < ((a :: t).dropLast).length := by omega
        rw [getD_dropLast _ _ hplt, getD_dropLast _ j hj]
        have hjlt : j < (a :: t).length := by
          simp only [List.length_dropLast] at hj
          omega
        exact hinv j hjlt h0j
      · intro h0
        omega

theorem seedLoop_heapInv (g : Nat → Nat) (n : Nat) :
    ∀ (k time idc : Nat) (q : List Event),
    MAX_ARRIVAL_TIME + 1 - time ≤ n → heapInv q →
    heapInv (seedLoop g k time idc q).1 := by
  induction n with
  | zero =>
    intro k time idc q hn hq
    rw [seedLoop, if_neg (by omega)]
    exact hq
  | succ n ih =>
    intro k time idc q hn hq
    rw [seedLoop]
    by_cases hle : time ≤ MAX_ARRIVAL_TIME
    · rw [if_pos hle]
      dsimp only
      apply ih
      · have h30 : 30 ≤ randintV g (k + 1) 30 120 := Nat.le_add_right _ _
        omega
      · exact heappush_heapInv q _ hq
    · rw [if_neg hle]
      exact hq

theorem initState_heapInv (g : Nat → Nat) :
    heapInv (initState g).eventQueue := by
  show heapInv (seedLoop g 1 (randintV g 0 30 120) 0 []).1
  exact seedLoop_heapInv g (MAX_ARRIVAL_TIME + 1) 1 _ 0 [] (by omega)
    heapInv_nil

theorem SStep_heapInv (s s2 : SimState) (h : SStep s s2)
    (hinv : heapInv s.eventQueue) : heapInv s2.eventQueue := by
  obtain ⟨e, s1, hne, hpe⟩ := h
  have h1 : heapInv s1.eventQueue := by
    rw [next_event] at hne
    cases hh : heappop s.eventQueue with
    | none => rw [hh] at hne; simp at hne
    | some p =>
      rw [hh] at hne
      obtain ⟨e2, q⟩ := p
      simp only [Option.some.injEq, Prod.mk.injEq] at hne
      rw [← hne.2]
      exact heappop_heapInv s.eventQueue e2 q hh hinv
  cases hek : e.kind with
  | arrival =>
    obtain ⟨_, _, hbranch⟩ := processEvent_arrival_char e s1 s2 hek hpe
    rcases hbranch with ⟨_, hq2, _⟩ | ⟨_, hq2, _⟩
    · rw [hq2]
      exact h1
    · rw [hq2]
      exact heappush_heapInv _ _ h1
  | prereg =>
    obtain ⟨r, _, _, _, _, _, hq2⟩ := processEvent_prereg_char e s1 s2 hek hpe
    rw [hq2]
    exact heappush_heapInv _ _ h1
  | testing =>
    obtain ⟨_, _, _, hq2⟩ := processEvent_testing_char e s1 s2 hek hpe
    rw [hq2]
    exact heappush_heapInv _ _ h1
  | departure =>
    obtain ⟨_, _, _, _, hq2⟩ := processEvent_departure_char e s1 s2 hek hpe
    rw [hq2]
    exact h1

theorem heapInv_reach (g : Nat → Nat) (s : SimState)
    (h : Reach (initState g) s) : heapInv s.eventQueue := by
  induction h with
  | refl => exact initState_heapInv g
  | tail hr hs ih => exact SStep_heapInv _ _ hs ih

/-! ## Claim theorems -/

/-- The all-zeros randomness stream used for concrete instances. -/
def zeroStream : Nat → Nat := fun _ => 0

/-- A small concrete state: empty queues, empty trace. -/
def wState : SimState := ⟨[], [], [], zeroStream, 0⟩

/-- A concrete TESTING event. -/
def wEvent : Event := ⟨0, 5, 1, EKind.testing⟩

/-- The state after dispatching wEvent in wState. -/
def wState2 : SimState :=
  ⟨[⟨0, 245, 1, EKind.departure⟩], [], [⟨5, 0, 1, EKind.testing, 0⟩],
    zeroStream, 0⟩

theorem processEvent_wEvent : processEvent wEvent wState = some wState2 := by
  simp [processEvent, wEvent, wState, wState2, log_self, writeLog, add_event,
    car_count, heappush_nil]

/-- C1 counterexample: on the very first dispatch of a real run (stream of
zeros), the popped event is an admitted ARRIVAL; exactly one record is
emitted, but its occupancy field is 0, the PRE-admission value, while the
post-mutation occupancy is 1. The claim, which demands the post-mutation
value for an admitted ARRIVAL, is therefore false: ArrivalEvent.processEvent
calls log_self before enqueue_car. -/
theorem C1_arrival_logs_pre_admission :
    ((next_event (initState zeroStream)).bind
        (fun p => processEvent p.1 p.2)).map
      (fun s => (s.trace.map (fun r => (r.etype, r.carsInSys)),
        s.carQueue.length)) =
      some ([(EKind.arrival, 0)], 1) := by
  cases hne : next_event (initState zeroStream) with
  | none =>
    exact absurd ((next_event_none_iff _).mp hne) (initQueue_ne_nil _)
  | some p =>
    obtain ⟨e, s1⟩ := p
    obtain ⟨hq, hcar, htr, _, _⟩ := next_event_char _ e s1 hne
    have hek : e.kind = EKind.arrival := by
      have he : e ∈ (initState zeroStream).eventQueue := by
        have : e ∈ (↑(initState zeroStream).eventQueue : Multiset Event) := by
          rw [hq]
          exact Multiset.mem_cons_self e _
        simpa using this
      have := seedEvents_mem zeroStream 0 e ((initQueue_mem_iff _ e).mp he)
      rw [this.2.2]
      rfl
    cases hpe : processEvent e s1 with
    | none =>
      exfalso
      rw [processEvent, hek] at hpe
      unfold enqueue_car at hpe
      simp only [log_self, writeLog, car_count] at hpe
      by_cases hfull : MAX_CARS ≤ s1.carQueue.length
      · rw [if_pos hfull] at hpe
        simp at hpe
      · rw [if_neg hfull] at hpe
        simp at hpe
    | some s2 =>
      obtain ⟨htr2, _, hbranch⟩ := processEvent_arrival_char e s1 s2 hek hpe
      have hcar0 : s1.carQueue = [] := by
        rw [hcar, (initState_char zeroStream).2.1]
      have htr0 : s1.trace = [] := by
        rw [htr, (initState_char zeroStream).2.2.1]
      rcases hbranch with ⟨hfull, _, _⟩ | ⟨_, _, hcar2⟩
      · rw [hcar0] at hfull
        simp [MAX_CARS] at hfull
      · show ((processEvent e s1).map
          (fun s => (s.trace.map (fun r => (r.etype, r.carsInSys)),
            s.carQueue.length))) = some ([(EKind.arrival, 0)], 1)
        rw [hpe]
        simp [htr2, htr0, hcar0, hcar2, recOf, hek]

/-- C1 (amended): every successful dispatch emits exactly one record, with
the fields of the dispatched event; the occupancy field carries the
post-mutation value for DEPARTURE and the pre-dispatch value for all other
kinds — in particular the PRE-admission value for ARRIVAL, because the
source logs before trying to admit; PREREGISTRATION and TESTING do not touch
the car queue at all. -/
theorem C1_single_record_emission (e : Event) (s s2 : SimState)
    (h : processEvent e s = some s2) :
    ∃ rec, s2.trace = s.trace ++ [rec] ∧ rec.time = e.timestamp ∧
      rec.carId = e.carId ∧ rec.personCount = e.personCount ∧
      rec.etype = e.kind ∧
      (e.kind = EKind.departure → rec.carsInSys = s2.carQueue.length) ∧
      (e.kind ≠ EKind.departure → rec.carsInSys = s.carQueue.length) ∧
      ((e.kind = EKind.prereg ∨ e.kind = EKind.testing) →
        s2.carQueue = s.carQueue) := by
  cases hek : e.kind with
  | arrival =>
    obtain ⟨htr2, _, _⟩ := processEvent_arrival_char e s s2 hek h
    refine ⟨recOf e s, htr2, rfl, rfl, rfl, ?_, ?_, ?_, ?_⟩
    · show (recOf e s).etype = EKind.arrival
      rw [← hek]
      rfl
    · intro hd
      exact absurd hd (by simp)
    · intro _
      rfl
    · intro hd
      rcases hd with hd | hd <;> exact absurd hd (by simp)
  | prereg =>
    obtain ⟨r, _, _, htr2, _, hcar2, _⟩ := processEvent_prereg_char e s s2 hek h
    refine ⟨recOf e s, htr2, rfl, rfl, rfl, ?_, ?_, fun _ => rfl,
      fun _ => hcar2⟩
    · show (recOf e s).etype = EKind.prereg
      rw [← hek]
      rfl
    · intro hd
      exact absurd hd (by simp)
  | testing =>
    obtain ⟨htr2, _, hcar2, _⟩ := processEvent_testing_char e s s2 hek h
    refine ⟨recOf e s, htr2, rfl, rfl, rfl, ?_, ?_, fun _ => rfl,
      fun _ => hcar2⟩
    · show (recOf e s).etype = EKind.testing
      rw [← hek]
      rfl
    · intro hd
      exact absurd hd (by simp)
  | departure =>
    obtain ⟨_, htr2, _, hcar2, _⟩ := processEvent_departure_char e s s2 hek h
    refine ⟨⟨e.timestamp, e.carId, e.personCount, e.kind,
      (s.carQueue.erase e.carId).length⟩, htr2, rfl, rfl, rfl, ?_, ?_, ?_, ?_⟩
    · show e.kind = EKind.departure
      exact hek
    · intro _
      rw [hcar2]
    · intro hd
      exact absurd rfl hd
    · intro hd
      rcases hd with hd | hd <;> exact absurd hd (by simp)

theorem C1_single_record_emission_witness :
    ∃ rec, wState2.trace = wState.trace ++ [rec] ∧
      rec.time = wEvent.timestamp ∧ rec.carId = wEvent.carId ∧
      rec.personCount = wEvent.personCount ∧ rec.etype = wEvent.kind ∧
      (wEvent.kind = EKind.departure →
        rec.carsInSys = wState2.carQueue.length) ∧
      (wEvent.kind ≠ EKind.departure →
        rec.carsInSys = wState.carQueue.length) ∧
      ((wEvent.kind = EKind.prereg ∨ wEvent.kind = EKind.testing) →
        wState2.carQueue = wState.carQueue) :=
  C1_single_record_emission wEvent wState wState2 processEvent_wEvent

/-- C2: in every state reachable during a run the number of admitted cars
never exceeds MAX_CARS, and every emitted record reports an occupancy of at
most MAX_CARS. -/
theorem C2_capacity_invariant (g : Nat → Nat) (s : SimState)
    (h : Reach (initState g) s) :
    s.carQueue.length ≤ MAX_CARS ∧ ∀ r ∈ s.trace, r.carsInSys ≤ MAX_CARS :=
  OccInv_reach g s h

theorem C2_capacity_invariant_witness :
    (initState zeroStream).carQueue.length ≤ MAX_CARS ∧
      ∀ r ∈ (initState zeroStream).trace, r.carsInSys ≤ MAX_CARS :=
  C2_capacity_invariant zeroStream (initState zeroStream)
    Relation.ReflTransGen.refl

/-- C3: enqueue_car admits and appends the id exactly when the car queue is
below MAX_CARS, and otherwise rejects, returning the queue unchanged. -/
theorem C3_enqueue_car_spec (q : List Nat) (id : Nat) :
    (q.length < MAX_CARS → enqueue_car q id = (true, q ++ [id])) ∧
    (MAX_CARS ≤ q.length → enqueue_car q id = (false, q)) := by
  constructor
  · intro h
    rw [enqueue_car, if_neg (by omega)]
  · intro h
    rw [enqueue_car, if_pos h]

theorem C3_enqueue_car_spec_witness :
    enqueue_car [] 5 = (true, [] ++ [5]) ∧
      enqueue_car [0, 1, 2, 3, 4, 5, 6, 7, 8, 9] 10 =
        (false, [0, 1, 2, 3, 4, 5, 6, 7, 8, 9]) :=
  ⟨(C3_enqueue_car_spec [] 5).1 (by decide),
    (C3_enqueue_car_spec [0, 1, 2, 3, 4, 5, 6, 7, 8, 9] 10).2 (by decide)⟩

/-- C4: in any completed run, every car that was admitted (equivalently, for
which a PREREGISTRATION record was emitted) has exactly one DEPARTURE record;
its timestamp strictly exceeds the ARRIVAL timestamp, and the dwell time is
r + 240 * occupantCount for the preregistration delay r drawn for this car,
with r always in 60..120. -/
theorem C4_admitted_departs (g : Nat → Nat) (n : Nat) (sf : SimState)
    (hrun : runFuel n (initState g) = some sf) (id : Nat)
    (hadm : ∃ rp ∈ sf.trace, rp.carId = id ∧ rp.etype = EKind.prereg) :
    ∃ ra rd, ra ∈ sf.trace ∧ rd ∈ sf.trace ∧
      ra.carId = id ∧ ra.etype = EKind.arrival ∧
      rd.carId = id ∧ rd.etype = EKind.departure ∧
      (sf.trace.filter (fun r => r.etype == EKind.departure &&
        r.carId == id)).length = 1 ∧
      ∃ r, 60 ≤ r ∧ r ≤ 120 ∧
        rd.time = ra.time + r + 240 * ra.personCount ∧
        ra.time < rd.time := by
  obtain ⟨rp, hrp, hrpid, hrpk⟩ := hadm
  have hrpf : rp ∈ recsF sf.trace id :=
    List.mem_filter.mpr ⟨hrp, by simp [hrpid]⟩
  rcases final_phase g n sf hrun id with h0 | ⟨c1, h1⟩ |
    ⟨r, c1, c2, c3, c4, hr1, hr2, h4⟩
  · rw [h0] at hrpf
    exact absurd hrpf (List.not_mem_nil rp)
  · rw [h1] at hrpf
    have := List.mem_singleton.mp hrpf
    rw [this] at hrpk
    exact absurd hrpk (by simp [arrRec])
  · have hma : arrRec g id c1 ∈ recsF sf.trace id := by
      rw [h4]
      simp
    have hmd : depRec g id r c4 ∈ recsF sf.trace id := by
      rw [h4]
      simp
    refine ⟨arrRec g id c1, depRec g id r c4,
      List.mem_of_mem_filter hma, List.mem_of_mem_filter hmd,
      rfl, rfl, rfl, rfl, ?_, r, hr1, hr2, ?_, ?_⟩
    · have hff : sf.trace.filter (fun r => r.etype == EKind.departure &&
          r.carId == id) =
          (recsF sf.trace id).filter (fun r => r.etype == EKind.departure) := by
        rw [recsF, List.filter_filter]
      rw [hff, h4]
      simp [arrRec, preRec, testRec, depRec]
    · rfl
    · show arrTime g id < arrTime g id + r + 240 * seedPC g id
      omega

theorem C4_admitted_departs_witness :
    ∃ n sf id, runFuel n (initState zeroStream) = some sf ∧
      (∃ rp ∈ sf.trace, rp.carId = id ∧ rp.etype = EKind.prereg) ∧
      ∃ ra rd, ra ∈ sf.trace ∧ rd ∈ sf.trace ∧
        ra.carId = id ∧ ra.etype = EKind.arrival ∧
        rd.carId = id ∧ rd.etype = EKind.departure ∧
        (sf.trace.filter (fun r => r.etype == EKind.departure &&
          r.carId == id)).length = 1 ∧
        ∃ r, 60 ≤ r ∧ r ≤ 120 ∧
          rd.time = ra.time + r + 240 * ra.personCount ∧
          ra.time < rd.time := by
  obtain ⟨sf, hrun⟩ := runFuel_terminates zeroStream
    (rankSum (↑(initState zeroStream).eventQueue)) (initState zeroStream)
    (RunInv_init zeroStream) (Nat.le_refl _)
  obtain ⟨rp, hrp, hrpk⟩ := exists_prereg_record zeroStream _ sf hrun
  exact ⟨_, sf, rp.carId, hrun, ⟨rp, hrp, rfl, hrpk⟩,
    C4_admitted_departs zeroStream _ sf hrun rp.carId ⟨rp, hrp, rfl, hrpk⟩⟩

/-- C5: in any completed run, a car id for which no PREREGISTRATION record
was ever emitted (in particular every car rejected at ARRIVAL) has no
TESTING or DEPARTURE record either: all of its records are ARRIVAL records,
and there is at most one of them. -/
theorem C5_rejected_no_follow_up (g : Nat → Nat) (n : Nat) (sf : SimState)
    (hrun : runFuel n (initState g) = some sf) (id : Nat)
    (hnopre : ∀ r ∈ sf.trace, r.carId = id → r.etype ≠ EKind.prereg) :
    (∀ r ∈ sf.trace, r.carId = id → r.etype = EKind.arrival) ∧
      (sf.trace.filter (fun r => r.carId == id)).length ≤ 1 := by
  have hrec : sf.trace.filter (fun r => r.carId == id) = recsF sf.trace id :=
    rfl
  rcases final_phase g n sf hrun id with h0 | ⟨c1, h1⟩ |
    ⟨r, c1, c2, c3, c4, hr1, hr2, h4⟩
  · refine ⟨?_, ?_⟩
    · intro rr hr hid
      have : rr ∈ recsF sf.trace id :=
        List.mem_filter.mpr ⟨hr, by simp [hid]⟩
      rw [h0] at this
      exact absurd this (List.not_mem_nil rr)
    · rw [hrec, h0]
      simp
  · refine ⟨?_, ?_⟩
    · intro rr hr hid
      have : rr ∈ recsF sf.trace id :=
        List.mem_filter.mpr ⟨hr, by simp [hid]⟩
      rw [h1] at this
      rw [List.mem_singleton.mp this]
      rfl
    · rw [hrec, h1]
      simp
  · exfalso
    have hmp : preRec g id c2 ∈ recsF sf.trace id := by
      rw [h4]
      simp
    exact hnopre (preRec g id c2) (List.mem_of_mem_filter hmp) rfl rfl

theorem C5_rejected_no_follow_up_witness :
    ∃ n sf, runFuel n (initState zeroStream) = some sf ∧
      (∀ r ∈ sf.trace, r.carId = 240 → r.etype = EKind.arrival) ∧
      (sf.trace.filter (fun r => r.carId == 240)).length ≤ 1 := by
  obtain ⟨sf, hrun⟩ := runFuel_terminates zeroStream
    (rankSum (↑(initState zeroStream).eventQueue)) (initState zeroStream)
    (RunInv_init zeroStream) (Nat.le_refl _)
  have hseed : ¬ arrTime zeroStream 240 ≤ MAX_ARRIVAL_TIME := by
    have := arrTime_lb zeroStream 240
    simp only [MAX_ARRIVAL_TIME]
    omega
  have hInv := (runFuel_inv zeroStream _ _ sf (RunInv_init zeroStream) hrun).1
  have hI := hInv 240
  rw [IdInv, if_neg hseed] at hI
  have hrecs : recsF sf.trace 240 = [] := hI.2.1
  have hnopre : ∀ r ∈ sf.trace, r.carId = 240 → r.etype ≠ EKind.prereg := by
    intro r hr hid
    have : r ∈ recsF sf.trace 240 := List.mem_filter.mpr ⟨hr, by simp [hid]⟩
    rw [hrecs] at this
    exact absurd this (List.not_mem_nil r)
  exact ⟨_, sf, hrun,
    C5_rejected_no_follow_up zeroStream _ sf hrun 240 hnopre⟩

/-- C6: dequeue_car removes exactly one entry, the first occurrence of the
given id, when the id is present (length and multiplicity drop by one), and
fails when it is absent; dispatching a DEPARTURE for an absent id aborts the
dispatch, and the run loop propagates the abort instead of absorbing it. -/
theorem C6_dequeue_car_spec (q : List Nat) (id : Nat) (e : Event)
    (s : SimState) :
    (id ∈ q → dequeue_car q id = some (q.erase id) ∧
      (q.erase id).length + 1 = q.length ∧
      (q.erase id).count id + 1 = q.count id) ∧
    (id ∉ q → dequeue_car q id = none) ∧
    (e.kind = EKind.departure → e.carId ∉ s.carQueue →
      processEvent e s = none) ∧
    (∀ n s0, e.kind = EKind.departure → e.carId ∉ s.carQueue →
      next_event s0 = some (e, s) → runFuel (n + 1) s0 = none) := by
  refine ⟨?_, ?_, ?_, ?_⟩
  · intro hm
    refine ⟨by rw [dequeue_car, if_pos hm], ?_, ?_⟩
    · rw [List.length_erase_of_mem hm]
      have : 0 < q.length := List.length_pos.mpr (by
        intro hq
        rw [hq] at hm
        exact absurd hm (List.not_mem_nil id))
      omega
    · rw [List.count_erase]
      simp only [beq_self_eq_true, if_true]
      have : 0 < q.count id := List.count_pos_iff.mpr hm
      omega
  · intro hm
    rw [dequeue_car, if_neg hm]
  · intro hk hm
    exact processEvent_departure_none e s hk hm
  · intro n s0 hk hm hne
    rw [runFuel, hne]
    dsimp only
    rw [processEvent_departure_none e s hk hm]

/-- A state whose only pending event is a DEPARTURE for a car that was never
admitted. -/
def wDepState : SimState :=
  ⟨[⟨5, 10, 1, EKind.departure⟩], [], [], zeroStream, 0⟩

theorem C6_dequeue_car_spec_witness :
    (dequeue_car [3, 4] 4 = some ([3, 4].erase 4) ∧
      ([3, 4].erase 4).length + 1 = [3, 4].length ∧
      ([3, 4].erase 4).count 4 + 1 = [3, 4].count 4) ∧
    dequeue_car [3] 7 = none ∧
    processEvent (⟨5, 10, 1, EKind.departure⟩ : Event) wState = none ∧
    runFuel (0 + 1) wDepState = none :=
  ⟨(C6_dequeue_car_spec [3, 4] 4 ⟨5, 10, 1, EKind.departure⟩ wState).1
      (by decide),
    (C6_dequeue_car_spec [3] 7 ⟨5, 10, 1, EKind.departure⟩ wState).2.1
      (by decide),
    (C6_dequeue_car_spec [3] 7 ⟨5, 10, 1, EKind.departure⟩ wState).2.2.1
      rfl (by decide),
    (C6_dequeue_car_spec [3] 7 ⟨5, 10, 1, EKind.departure⟩ wState).2.2.2
      0 wDepState rfl (by decide) rfl⟩

/-- C7: in every reachable state of a run, next_event signals empty on the
empty queue, and on a non-empty queue removes and returns an event whose
timestamp is minimal among all queued events (the event comparators order
events solely by timestamp); nothing but the event queue changes. The queue
of every reachable state satisfies the binary-heap ordering that heapq
maintains, which heappop relies on to return the minimum. -/
theorem C7_next_event_pops_minimum (g : Nat → Nat) (s : SimState)
    (hreach : Reach (initState g) s) :
    (s.eventQueue = [] → next_event s = none) ∧
    (s.eventQueue ≠ [] →
      ∃ e s1, next_event s = some (e, s1) ∧ e ∈ s.eventQueue ∧
        (∀ x ∈ s.eventQueue, e.timestamp ≤ x.timestamp) ∧
        (↑s.eventQueue : Multiset Event) = e ::ₘ ↑s1.eventQueue ∧
        s1.carQueue = s.carQueue ∧ s1.trace = s.trace) := by
  have hinv := heapInv_reach g s hreach
  constructor
  · exact (next_event_none_iff s).mpr
  · intro hne
    obtain ⟨e, rest, hpop, hmem, hmin⟩ := heappop_min s.eventQueue hinv hne
    refine ⟨e, { s with eventQueue := rest }, ?_, hmem, hmin,
      heappop_multiset _ _ _ hpop, rfl, rfl⟩
    rw [next_event, hpop]

theorem C7_next_event_pops_minimum_witness :
    ∃ e s1, next_event (initState zeroStream) = some (e, s1) ∧
      e ∈ (initState zeroStream).eventQueue ∧
      (∀ x ∈ (initState zeroStream).eventQueue,
        e.timestamp ≤ x.timestamp) ∧
      (↑(initState zeroStream).eventQueue : Multiset Event) =
        e ::ₘ ↑s1.eventQueue ∧
      s1.carQueue = (initState zeroStream).carQueue ∧
      s1.trace = (initState zeroStream).trace :=
  (C7_next_event_pops_minimum zeroStream (initState zeroStream)
    Relation.ReflTransGen.refl).2 (initQueue_ne_nil zeroStream)

/-- C8: the seeded initial queue consists of ARRIVAL events only, with
timestamps within the arrival horizon, occupant counts in 1..5, pairwise
distinct fresh ids, a first arrival at a random offset in 30..120, and
strictly increasing timestamps advancing by a step in 30..120 from each car
to the next. -/
theorem C8_seeding (g : Nat → Nat) :
    (∀ e ∈ (initState g).eventQueue, e.kind = EKind.arrival ∧
      e.timestamp ≤ MAX_ARRIVAL_TIME ∧ 1 ≤ e.personCount ∧
      e.personCount ≤ 5) ∧
    ((initState g).eventQueue.map Event.carId).Nodup ∧
    (∃ e0 ∈ (initState g).eventQueue, e0.carId = 0 ∧ 30 ≤ e0.timestamp ∧
      e0.timestamp ≤ 120) ∧
    (∀ e1 ∈ (initState g).eventQueue, ∀ e2 ∈ (initState g).eventQueue,
      e1.carId < e2.carId → e1.timestamp < e2.timestamp) ∧
    (∀ e1 ∈ (initState g).eventQueue, ∀ e2 ∈ (initState g).eventQueue,
      e2.carId = e1.carId + 1 →
        e1.timestamp + 30 ≤ e2.timestamp ∧
        e2.timestamp ≤ e1.timestamp + 120) := by
  have hperm : (initState g).eventQueue.Perm (seedEvents g 0) :=
    Multiset.coe_eq_coe.mp (initState_char g).1
  refine ⟨?_, ?_, ?_, ?_, ?_⟩
  · intro e he
    obtain ⟨_, hle, heq⟩ := seedEvents_mem g 0 e ((initQueue_mem_iff g e).mp he)
    have hts : e.timestamp = arrTime g e.carId := by
      rw [heq]
      rfl
    have hpc : e.personCount = seedPC g e.carId := by
      rw [heq]
      rfl
    have hk : e.kind = EKind.arrival := by
      rw [heq]
      rfl
    have hpcb := randintV_le g (2 * e.carId + 1) 1 5 (by omega)
    rw [hts, hpc, hk]
    exact ⟨rfl, hle, hpcb.1, hpcb.2⟩
  · exact (hperm.map Event.carId).nodup_iff.mpr (seedEvents_map_carId_nodup g 0)
  · refine ⟨evOf g 0, ?_, rfl, ?_, ?_⟩
    · rw [initQueue_mem_iff, seedEvents_zero_head]
      exact List.mem_cons_self _ _
    · exact (randintV_le g 0 30 120 (by omega)).1
    · exact (randintV_le g 0 30 120 (by omega)).2
  · intro e1 he1 e2 he2 hlt
    obtain ⟨_, _, heq1⟩ := seedEvents_mem g 0 e1 ((initQueue_mem_iff g e1).mp he1)
    obtain ⟨_, _, heq2⟩ := seedEvents_mem g 0 e2 ((initQueue_mem_iff g e2).mp he2)
    have hts1 : e1.timestamp = arrTime g e1.carId := by rw [heq1]; rfl
    have hts2 : e2.timestamp = arrTime g e2.carId := by rw [heq2]; rfl
    rw [hts1, hts2]
    exact arrTime_strict_mono g e1.carId e2.carId hlt
  · intro e1 he1 e2 he2 hsucc
    obtain ⟨_, _, heq1⟩ := seedEvents_mem g 0 e1 ((initQueue_mem_iff g e1).mp he1)
    obtain ⟨_, _, heq2⟩ := seedEvents_mem g 0 e2 ((initQueue_mem_iff g e2).mp he2)
    have hts1 : e1.timestamp = arrTime g e1.carId := by rw [heq1]; rfl
    have hts2 : e2.timestamp = arrTime g e2.carId := by rw [heq2]; rfl
    rw [hts1, hts2, hsucc]
    exact arrTime_step g e1.carId

theorem C8_seeding_witness :
    ∃ e0 ∈ (initState zeroStream).eventQueue, e0.carId = 0 ∧
      30 ≤ e0.timestamp ∧ e0.timestamp ≤ 120 :=
  (C8_seeding zeroStream).2.2.1

/-- C9: for every seed the run terminates: with fuel equal to the total
remaining work of the seeded queue the loop drains the queue completely,
and no single dispatch can grow the queue by more than one event. -/
theorem C9_run_terminates (g : Nat → Nat) :
    (∃ sf, runFuel (rankSum (↑(initState g).eventQueue)) (initState g) =
        some sf ∧ sf.eventQueue = []) ∧
    ∀ e s s2, processEvent e s = some s2 →
      s2.eventQueue.length ≤ s.eventQueue.length + 1 := by
  constructor
  · obtain ⟨sf, h⟩ := runFuel_terminates g
      (rankSum (↑(initState g).eventQueue)) (initState g) (RunInv_init g)
      (Nat.le_refl _)
    exact ⟨sf, h, (runFuel_inv g _ _ sf (RunInv_init g) h).2⟩
  · intro e s s2 hpe
    have hpush : ∀ (q : List Event) (x : Event),
        (heappush q x).length = q.length + 1 := by
      intro q x
      have := congrArg Multiset.card (heappush_multiset q x)
      simpa using this
    cases hek : e.kind with
    | arrival =>
      obtain ⟨_, _, hbranch⟩ := processEvent_arrival_char e s s2 hek hpe
      rcases hbranch with ⟨_, hq2, _⟩ | ⟨_, hq2, _⟩
      · rw [hq2]
        omega
      · rw [hq2, hpush]
    | prereg =>
      obtain ⟨r, _, _, _, _, _, hq2⟩ := processEvent_prereg_char e s s2 hek hpe
      rw [hq2, hpush]
    | testing =>
      obtain ⟨_, _, _, hq2⟩ := processEvent_testing_char e s s2 hek hpe
      rw [hq2, hpush]
    | departure =>
      obtain ⟨_, _, _, _, hq2⟩ := processEvent_departure_char e s s2 hek hpe
      rw [hq2]
      omega

theorem C9_run_terminates_witness :
    (∃ sf, runFuel (rankSum (↑(initState zeroStream).eventQueue))
        (initState zeroStream) = some sf ∧ sf.eventQueue = []) ∧
      wState2.eventQueue.length ≤ wState.eventQueue.length + 1 :=
  ⟨(C9_run_terminates zeroStream).1,
    (C9_run_terminates zeroStream).2 wEvent wState wState2 processEvent_wEvent⟩

/-- C10: in every reachable state the car queue holds pairwise distinct ids,
so releasing a car by id removes exactly its one entry: after the erase no
entry with that id remains. -/
theorem C10_car_queue_distinct (g : Nat → Nat) (s : SimState)
    (h : Reach (initState g) s) :
    s.carQueue.Nodup ∧
      ∀ id ∈ s.carQueue, (s.carQueue.erase id).count id = 0 := by
  have hnd := carQueue_nodup_reach g s h
  refine ⟨hnd, fun id hm => ?_⟩
  have hle := RunInv_count_le_one g s (Reach_inv g s h) id
  have hpos : 0 < s.carQueue.count id := List.count_pos_iff.mpr hm
  rw [List.count_erase]
  simp only [beq_self_eq_true, if_true]
  omega

theorem C10_car_queue_distinct_witness :
    (initState zeroStream).carQueue.Nodup ∧
      ∀ id ∈ (initState zeroStream).carQueue,
        ((initState zeroStream).carQueue.erase id).count id = 0 :=
  C10_car_queue_distinct zeroStream (initState zeroStream)
    Relation.ReflTransGen.refl
